import Mathlib

/-!
Shallow embedding of the Submission Evaluation & Ranking Engine of the
contest platform (source: `src/unnamed/part_000`).

Modelling conventions:
* Timestamps are the integer millisecond epoch values the source obtains via
  `Date.prototype.getTime()` / Luxon; ISO-string parsing is outside the model,
  so a contest carries its parsed `startMs`/`endMs` directly and a submission
  carries its parsed `date`.
* Results are the literal strings the source stores: `"CA"`, `"WA"` and
  `"未判定"` (unjudged).
* JavaScript truthiness on the optional fields is modelled explicitly:
  a missing or empty `correctAnswer` is falsy, `score || 100` and
  `submissionLimit || 10` map `0`/missing to the default.
* `(submissionTime - startTime) / 1000` is exact division in ℚ.
-/

namespace Zisaku

/-- A submission record as built by the submit route (`part_000:1701-1708`).
`date` is the millisecond timestamp of `DateTime.now()`. -/
structure Submission where
  problemId : String
  user : String
  result : String
  answer : String
  date : Int
  deriving Repr, DecidableEq

/-- A problem (`part_000`, contest editing routes).  `score = 0` models a
missing/zero score (falsy in JS, replaced by 100 via `problem.score || 100`);
`correctAnswer = none` models a missing correct answer. -/
structure Problem where
  id : String
  score : Nat
  correctAnswer : Option String
  deriving Repr, DecidableEq

/-- A contest, restricted to the fields the ranking engine reads.
`submissionLimit = 0` models a falsy stored limit (replaced by 10 via
`contest.submissionLimit || 10`, `part_000:1680`). -/
structure Contest where
  startMs : Int
  endMs : Int
  submissionLimit : Nat
  problems : List Problem
  submissions : List Submission
  deriving Repr, DecidableEq

/-- The fields of a user record the judge consults. -/
structure User where
  username : String
  isAdmin : Bool
  deriving Repr, DecidableEq

/-- `canManageContest` (`part_000:392-395`): any admin can manage any
contest; non-admins never can.  The `contest` argument is unused by the
source body. -/
def canManageContest (u : User) (_c : Contest) : Bool :=
  u.isAdmin

/-- `isContestStartedOrActive` (`part_000:412-417`): `start ≤ now ≤ end`.
`now` is the caller's clock reading. -/
def isContestStartedOrActive (c : Contest) (now : Int) : Bool :=
  decide (c.startMs ≤ now) && decide (now ≤ c.endMs)

/-- The whitespace characters removed by `String.prototype.trim` that can
occur in the form inputs of this app. -/
def wsChar (c : Char) : Bool :=
  c = ' ' || c = '\t' || c = '\n' || c = '\r'

/-- `String.prototype.trim`: drop whitespace from both ends. -/
def jsTrim (s : String) : String :=
  ⟨((s.data.dropWhile wsChar).reverse.dropWhile wsChar).reverse⟩

/-- The regex `^[0-9]+$` (`part_000:1693`): one or more ASCII digits. -/
def matchesDigitRegex (s : String) : Bool :=
  !s.data.isEmpty && s.data.all (fun c => '0' ≤ c && c ≤ '9')

/-- The stored result for an unjudged submission (`part_000:1699`). -/
def unjudged : String := "未判定"

/-- The `result` computation of the submit handler (`part_000:1698-1699`):
`problem.correctAnswer ? problem.correctAnswer.toString().trim() : null`
followed by `correctAnswer ? (submittedAnswer === correctAnswer ? 'CA' : 'WA')
: '未判定'`.  JS truthiness makes a missing or empty raw string - and, after
trimming, a whitespace-only string - fall to `未判定`.
`submittedAnswer` is the already-trimmed submitted answer. -/
def judgedResult (correctAnswer : Option String) (submittedAnswer : String) : String :=
  let ca : Option String :=
    match correctAnswer with
    | some s => if s ≠ "" then some (jsTrim s) else none
    | none => none
  match ca with
  | some t => if t ≠ "" then (if submittedAnswer = t then "CA" else "WA") else unjudged
  | none => unjudged

/-- The validation failures of the submit route (`part_000:1670-1696`),
in source order: manager check (403), unknown problem (404), submission
limit (403), answer format (400). -/
inductive SubmitError where
  | forbiddenManagerSubmission
  | problemNotFound
  | submissionLimitExceeded
  | invalidAnswerFormat
  deriving Repr, DecidableEq

/-- The in-window submissions of `(user, problem)` counted against the limit
(`part_000:1681-1687`): same user, same problem, `date ≤ endTime`. -/
def submissionsForLimit (c : Contest) (username problemId : String) : List Submission :=
  c.submissions.filter
    (fun s => decide (s.user = username ∧ s.problemId = problemId ∧ s.date ≤ c.endMs))

/-- `contest.submissionLimit || 10` (`part_000:1680`). -/
def effectiveLimit (c : Contest) : Nat :=
  if c.submissionLimit = 0 then 10 else c.submissionLimit

/-- The submit handler `app.post('/contest/:contestId/submit/:problemId')`
(`part_000:1657-1718`), as a function of the contest snapshot, the caller,
the clock reading `now`, the path problem id and the raw answer body.
Returns the appended submission record or the validation failure. -/
def submitAttempt (c : Contest) (u : User) (now : Int) (problemId answer : String) :
    Except SubmitError Submission :=
  if isContestStartedOrActive c now && canManageContest u c then
    .error .forbiddenManagerSubmission
  else
    match c.problems.find? (fun p => p.id = problemId) with
    | none => .error .problemNotFound
    | some problem =>
      if isContestStartedOrActive c now &&
          decide (effectiveLimit c ≤ (submissionsForLimit c u.username problemId).length) then
        .error .submissionLimitExceeded
      else
        let submittedAnswer := jsTrim answer
        if !matchesDigitRegex submittedAnswer then
          .error .invalidAnswerFormat
        else
          .ok { problemId := problemId
                user := u.username
                result := judgedResult problem.correctAnswer submittedAnswer
                answer := submittedAnswer
                date := now }

/-- The ledger after a submit attempt: the handler appends exactly on
success (`part_000:1709-1710`) and leaves the ledger untouched on every
rejection path. -/
def ledgerAfterSubmit (c : Contest) (u : User) (now : Int) (problemId answer : String) :
    List Submission :=
  match submitAttempt c u now problemId answer with
  | .ok s => c.submissions ++ [s]
  | .error _ => c.submissions

/-! ### Best-Attempt Resolver

The contest page (`part_000:853-866`) and the ranking route
(`part_000:1099-1112`) both fold the filtered submission stream into a
`Map` keyed by `(user, problemId)`.  Each key's entry is updated only by
submissions of that key, in arrival order, so the entry for a key equals
the fold below over the key's subsequence. -/

/-- One step of the best-attempt fold (`part_000:1103-1111`): the incoming
`sub` replaces `existingSub` when there is no entry yet, when a `"CA"`
challenges a non-`"CA"`, or when both are non-`"CA"` and `sub` is strictly
later. -/
def repStep (cur : Option Submission) (sub : Submission) : Option Submission :=
  match cur with
  | none => some sub
  | some existingSub =>
    if (existingSub.result ≠ "CA" ∧ sub.result = "CA")
        ∨ (existingSub.result ≠ "CA" ∧ sub.result ≠ "CA"
            ∧ existingSub.date < sub.date) then
      some sub
    else
      some existingSub

/-- The representative attempt of one `(user, problem)` group, folded in
arrival order. -/
def groupRepresentative (g : List Submission) : Option Submission :=
  g.foldl repStep none

/-- The submissions the ranking route keeps (`part_000:1095-1097`):
`date ≤ contest.endTime`, in ledger order. -/
def submissionsDuringContest (c : Contest) (subs : List Submission) : List Submission :=
  subs.filter (fun s => decide (s.date ≤ c.endMs))

/-- The window-filtered representative of `(user, problem)` as derived by
the ranking route's `userSubmissionsDuringContestMap`
(`part_000:1099-1112`): the best-attempt fold over the user's in-window
submissions on the problem, in ledger (arrival) order. -/
def windowRepresentative (c : Contest) (subs : List Submission) (u p : String) :
    Option Submission :=
  groupRepresentative
    ((submissionsDuringContest c subs).filter
      (fun s => decide (s.user = u ∧ s.problemId = p)))

/-- Whether the window-filtered representative of `(user, problem)` is an
accepted attempt. -/
def windowRepIsCA (c : Contest) (subs : List Submission) (u p : String) : Bool :=
  match windowRepresentative c subs u p with
  | some s => decide (s.result = "CA")
  | none => false

/-! ### Ranking Calculator (`part_000:1117-1200`) -/

/-- Per-problem local state of the ranking fold (`part_000:1147-1154`). -/
structure ProbStat where
  status : String := "none"
  time : Option ℚ := none
  waCountBeforeCA : Nat := 0
  waCount : Nat := 0
  deriving Repr, DecidableEq

/-- Per-user state of the ranking fold (`part_000:1138-1145`).
`totalWABeforeCA` is recomputed after the fold, so it is not stored here. -/
structure UserStat where
  score : Nat := 0
  lastCATime : ℚ := 0
  problems : List (String × ProbStat) := []
  deriving Repr, DecidableEq

/-- First-acceptor record for one problem (`part_000:1167-1169`). -/
structure FARecord where
  user : String
  time : Int
  deriving Repr, DecidableEq

/-- Lookup in an insertion-ordered association list (models reading a JS
object property / `Map.get`). -/
def getv {β : Type} : List (String × β) → String → Option β
  | [], _ => none
  | (k, v) :: t, key => if k = key then some v else getv t key

/-- Update-or-append in an insertion-ordered association list (models
writing a JS object property / `Map.set`): an existing key keeps its
position, a new key is appended. -/
def setk {β : Type} : List (String × β) → String → β → List (String × β)
  | [], key, v => [(key, v)]
  | (k, w) :: t, key, v =>
    if k = key then (key, v) :: t else (k, w) :: setk t key v

/-- The `problemScores` object (`part_000:1118-1121`):
`problemScores[problem.id] = problem.score || 100`, later assignments
overwriting earlier ones. -/
def problemScores (problems : List Problem) : List (String × Nat) :=
  problems.foldl (fun m p => setk m p.id (if p.score = 0 then 100 else p.score)) []

/-- `problemScores[problemId] || 0` (`part_000:1161`): the mapped score, or
0 for a problem id absent from the contest's problem list. -/
def scoreFor (c : Contest) (problemId : String) : Nat :=
  (getv (problemScores c.problems) problemId).getD 0

/-- `timeSinceStart` (`part_000:1136`): `(submissionTime - startTime) / 1000`
seconds, exact in ℚ. -/
def timeSinceStart (c : Contest) (s : Submission) : ℚ :=
  ((s.date - c.startMs : Int) : ℚ) / 1000

/-- The per-problem transition of the ranking fold (`part_000:1158-1176`),
restricted to the fields of the problem's local state. -/
def probStep (c : Contest) (ps : ProbStat) (s : Submission) : ProbStat :=
  if s.result = "CA" ∧ ps.status ≠ "CA" then
    { ps with status := "CA", time := some (timeSinceStart c s) }
  else if s.result = "WA" ∧ ps.status ≠ "CA" then
    { ps with
      status := "WA"
      waCountBeforeCA := ps.waCountBeforeCA + 1
      waCount := ps.waCount + 1 }
  else if s.result = "WA" then
    { ps with waCount := ps.waCount + 1 }
  else
    ps

/-- Mutable state of the ranking fold: `userStats` and `firstFA`
(`part_000:1123-1125`). -/
structure RState where
  stats : List (String × UserStat) := []
  firstFA : List (String × FARecord) := []
  deriving Repr, DecidableEq

/-- Whether the submission is a first acceptance for its (user, problem)
pair: the guard of the `CA` branch at `part_000:1158`. -/
def isNewCA (ustat : UserStat) (sub : Submission) : Bool :=
  decide (sub.result = "CA" ∧
    ((getv ustat.problems sub.problemId).getD {}).status ≠ "CA")

/-- The per-user effect of one iteration of the ranking fold
(`part_000:1138-1176`): apply the per-problem transition to the problem's
entry (created with the defaults of `part_000:1147-1153` when absent), and
on a first acceptance add the problem's score and raise `lastCATime`. -/
def updatedUserStat (c : Contest) (ustat : UserStat) (sub : Submission) : UserStat :=
  let pstat := (getv ustat.problems sub.problemId).getD {}
  { score := ustat.score + (if isNewCA ustat sub then scoreFor c sub.problemId else 0)
    lastCATime :=
      if isNewCA ustat sub then max ustat.lastCATime (timeSinceStart c sub)
      else ustat.lastCATime
    problems := setk ustat.problems sub.problemId (probStep c pstat sub) }

/-- The `firstFA` effect of one iteration (`part_000:1167-1169`): on a
first acceptance, record it when the problem has no record yet or this
submission is strictly earlier. -/
def updatedFA (fa : List (String × FARecord)) (sub : Submission) (isNew : Bool) :
    List (String × FARecord) :=
  if isNew then
    match getv fa sub.problemId with
    | none => setk fa sub.problemId ⟨sub.user, sub.date⟩
    | some r =>
      if sub.date < r.time then setk fa sub.problemId ⟨sub.user, sub.date⟩
      else fa
  else
    fa

/-- One iteration of `submissionsDuringContest.forEach`
(`part_000:1131-1177`): ensure the user entry exists (with the defaults of
`part_000:1138-1145`), update it, and update `firstFA`. -/
def rankStep (c : Contest) (st : RState) (sub : Submission) : RState :=
  let ustat := (getv st.stats sub.user).getD {}
  ⟨setk st.stats sub.user (updatedUserStat c ustat sub),
    updatedFA st.firstFA sub (isNewCA ustat sub)⟩

/-- The window-filtered stream sorted ascending by `date`
(`part_000:1127-1129`); `Array.prototype.sort` is stable in the target
runtime, so a stable merge sort models it. -/
def sortedDuringContest (c : Contest) (subs : List Submission) : List Submission :=
  (submissionsDuringContest c subs).mergeSort (fun a b => decide (a.date ≤ b.date))

/-- The full ranking fold over the sorted window-filtered stream. -/
def rankingFold (c : Contest) (subs : List Submission) : RState :=
  (sortedDuringContest c subs).foldl (rankStep c) {}

/-- `totalWABeforeCA` (`part_000:1179-1183`): the sum of
`waCountBeforeCA` over the user's problems whose status is `"CA"`. -/
def totalWABeforeCA (u : UserStat) : Nat :=
  (u.problems.map (fun pr => if pr.2.status = "CA" then pr.2.waCountBeforeCA else 0)).sum

/-- One row of the rankings array (`part_000:1185-1195`).  `lastCATime`
is the penalty-adjusted time `stats.lastCATime + totalWABeforeCA * 300`. -/
structure RankEntry where
  username : String
  score : Nat
  lastCATime : ℚ
  problems : List (String × ProbStat)
  totalWABeforeCA : Nat
  deriving Repr, DecidableEq

/-- `rankings` before sorting (`part_000:1185-1195`), one entry per key of
`userStats` in insertion order. -/
def rankingsOf (st : RState) : List RankEntry :=
  st.stats.map (fun pr =>
    { username := pr.1
      score := pr.2.score
      lastCATime := pr.2.lastCATime + (totalWABeforeCA pr.2 : ℚ) * 300
      problems := pr.2.problems
      totalWABeforeCA := totalWABeforeCA pr.2 })

/-- The sort comparator (`part_000:1197-1200`): score descending, ties by
penalty-adjusted time ascending; equal on both keys compares as 0, which a
stable sort leaves in input order. -/
def rankLE (a b : RankEntry) : Bool :=
  if a.score = b.score then decide (a.lastCATime ≤ b.lastCATime)
  else decide (b.score < a.score)

/-- The ranking route's output: the sorted leaderboard and the first-
acceptor records. -/
structure RankingOutput where
  rankings : List RankEntry
  firstFA : List (String × FARecord)
  deriving Repr, DecidableEq

/-- The complete ranking computation of
`app.get('/contest/:contestId/ranking')` (`part_000:1081-1200`) as a
function of the contest metadata and the ledger snapshot. -/
def contestRanking (c : Contest) (subs : List Submission) : RankingOutput :=
  let st := rankingFold c subs
  ⟨(rankingsOf st).mergeSort rankLE, st.firstFA⟩

/-! ### Fixtures for witnesses and counterexamples -/

/-- A problem worth 100 points with correct answer `"7"`. -/
def demoProblem : Problem := ⟨"A", 100, some "7"⟩

/-- A contest running from 0 ms to 1000000 ms with an empty ledger. -/
def demoContest : Contest :=
  { startMs := 0, endMs := 1000000, submissionLimit := 10
    problems := [demoProblem], submissions := [] }

/-- An admin caller (holds contest-management capability). -/
def adminUser : User := ⟨"staff", true⟩

/-- A non-admin caller. -/
def plainUser : User := ⟨"alice", false⟩

/-- One earlier wrong in-window submission by `staff` on problem `A`. -/
def staffWA : Submission := ⟨"A", "staff", "WA", "1", 10⟩

/-- `demoContest` with ten in-window submissions by `staff` on `A`:
the (user, problem) pair is at the limit. -/
def atLimitContest : Contest :=
  { demoContest with submissions := List.replicate 10 staffWA }

/-- Replace every problem's stored correct answer. -/
def withCorrect (c : Contest) (co : Option String) : Contest :=
  { c with problems := c.problems.map (fun p => { p with correctAnswer := co }) }

/-! ### C5: manager submissions during an active contest -/

/-- C5: while the contest is active, a caller holding contest-management
capability is rejected with `ForbiddenManagerSubmission` and nothing is
appended to the ledger (`part_000:1670-1672`). -/
theorem manager_submission_rejected (c : Contest) (u : User) (now : Int)
    (problemId answer : String)
    (hactive : isContestStartedOrActive c now = true)
    (hmgr : canManageContest u c = true) :
    submitAttempt c u now problemId answer = .error .forbiddenManagerSubmission ∧
    ledgerAfterSubmit c u now problemId answer = c.submissions := by
  have h : submitAttempt c u now problemId answer = .error .forbiddenManagerSubmission := by
    unfold submitAttempt
    rw [hactive, hmgr]
    rfl
  refine ⟨h, ?_⟩
  unfold ledgerAfterSubmit
  rw [h]

/-- C5 witness: an admin submitting a well-formed answer to the active
`demoContest` is rejected and the ledger stays empty. -/
theorem manager_submission_rejected_witness :
    submitAttempt demoContest adminUser 500 "A" "7" = .error .forbiddenManagerSubmission ∧
    ledgerAfterSubmit demoContest adminUser 500 "A" "7" = demoContest.submissions :=
  manager_submission_rejected demoContest adminUser 500 "A" "7" (by decide) (by decide)

/-! ### C6: the submission-limit check -/

/-- C6 counterexample: an admin at the limit during the active window is
rejected, but with `ForbiddenManagerSubmission` — the manager check at
`part_000:1670` fires before the limit check at `part_000:1688` — so
"rejected with `SubmissionLimitExceeded` iff active and at the limit"
fails in the right-to-left direction. -/
theorem limit_rejection_iff_cex :
    isContestStartedOrActive atLimitContest 500 = true ∧
    effectiveLimit atLimitContest ≤
      (submissionsForLimit atLimitContest "staff" "A").length ∧
    submitAttempt atLimitContest adminUser 500 "A" "7" =
      .error .forbiddenManagerSubmission ∧
    submitAttempt atLimitContest adminUser 500 "A" "7" ≠
      .error .submissionLimitExceeded := by
  have h : submitAttempt atLimitContest adminUser 500 "A" "7" =
      .error .forbiddenManagerSubmission := by rfl
  refine ⟨by decide, by decide, h, ?_⟩
  rw [h]
  simp

/-- C6 amended: `SubmissionLimitExceeded` is returned iff the contest is
active, the caller lacks contest-management capability, the problem
exists, and the in-window count for the (user, problem) pair has reached
the effective limit; moreover with the contest not active the attempt is
never rejected for the limit, and succeeds whenever the trimmed answer is
well-formed and the problem exists. -/
theorem limit_rejection_iff (c : Contest) (u : User) (now : Int)
    (problemId answer : String) :
    (submitAttempt c u now problemId answer = .error .submissionLimitExceeded ↔
      isContestStartedOrActive c now = true ∧ canManageContest u c = false ∧
      (c.problems.find? (fun p => p.id = problemId)).isSome = true ∧
      effectiveLimit c ≤ (submissionsForLimit c u.username problemId).length) ∧
    (isContestStartedOrActive c now = false →
      matchesDigitRegex (jsTrim answer) = true →
      (c.problems.find? (fun p => p.id = problemId)).isSome = true →
      ∃ s, submitAttempt c u now problemId answer = .ok s) := by
  constructor
  · cases hA : isContestStartedOrActive c now with
    | false =>
      constructor
      · intro h
        exfalso
        unfold submitAttempt at h
        rw [hA] at h
        cases hF : c.problems.find? (fun p => p.id = problemId) <;>
          rw [hF] at h <;> simp at h
        cases hD : matchesDigitRegex (jsTrim answer) <;> simp [hD] at h
      · rintro ⟨h1, -⟩
        exact absurd h1 (by simp [hA])
    | true =>
      cases hM : canManageContest u c with
      | true =>
        constructor
        · intro h
          exfalso
          unfold submitAttempt at h
          rw [hA, hM] at h
          simp at h
        · rintro ⟨-, h2, -⟩
          exact absurd h2 (by simp [hM])
      | false =>
        cases hF : c.problems.find? (fun p => p.id = problemId) with
        | none =>
          constructor
          · intro h
            exfalso
            unfold submitAttempt at h
            rw [hA, hM, hF] at h
            simp at h
          · rintro ⟨-, -, h3, -⟩
            exact absurd h3 (by simp [hF])
        | some problem =>
          by_cases hL :
              effectiveLimit c ≤ (submissionsForLimit c u.username problemId).length
          · constructor
            · intro _
              exact ⟨rfl, rfl, by simp [hF], hL⟩
            · intro _
              unfold submitAttempt
              rw [hA, hM, hF]
              simp [hL]
          · constructor
            · intro h
              exfalso
              unfold submitAttempt at h
              rw [hA, hM, hF] at h
              simp [hL] at h
              cases hD : matchesDigitRegex (jsTrim answer) <;> simp [hD] at h
            · rintro ⟨-, -, -, h4⟩
              exact absurd h4 hL
  · intro hA hD hF
    rw [Option.isSome_iff_exists] at hF
    obtain ⟨problem, hF⟩ := hF
    unfold submitAttempt
    rw [hA, hF]
    simp [hD]

/-- C6 witness: with the contest ended (`now` past `endTime`), an 11th
well-formed submission by a non-admin at the limit is accepted. -/
theorem limit_rejection_iff_witness :
    ∃ s, submitAttempt
        { atLimitContest with submissions :=
            (atLimitContest.submissions.map (fun x => { x with user := "alice" })) }
        plainUser 2000000 "A" "7" = .ok s := by
  refine (limit_rejection_iff _ plainUser 2000000 "A" "7").2 (by decide) (by decide) (by decide)

/-! ### C7: the judged result -/

/-- C7 counterexample: with the correct answer set to the whitespace-only
string `" "` the stored result is `未判定`, not the `"WA"` the trimmed
string comparison would give — JS truthiness at `part_000:1699` treats the
trimmed-to-empty correct answer as unset. -/
theorem judged_result_cex :
    judgedResult (some " ") "7" = unjudged ∧
    some " " ≠ (none : Option String) ∧
    jsTrim "7" ≠ jsTrim " " ∧
    unjudged ≠ "WA" := by
  refine ⟨by decide, by decide, by decide, by decide⟩

/-- C7 amended: the stored result of an accepted submission is the judged
result of the found problem's correct answer against the trimmed submitted
string; it is `未判定` exactly when the correct answer is unset, empty, or
trims to the empty string; otherwise it is `"CA"` exactly on exact trimmed
string equality (so `"007"` against `"7"` is `"WA"`), and `"WA"`
otherwise. -/
theorem judged_result_spec (c : Contest) (u : User) (now : Int)
    (problemId answer : String) :
    (∀ s, submitAttempt c u now problemId answer = .ok s →
      ∃ p, c.problems.find? (fun q => q.id = problemId) = some p ∧
        s.result = judgedResult p.correctAnswer (jsTrim answer)) ∧
    (∀ co : Option String, ∀ submitted : String,
      (judgedResult co submitted = unjudged ↔
        co = none ∨ ∃ t, co = some t ∧ jsTrim t = "") ∧
      (∀ t, co = some t → jsTrim t ≠ "" →
        (judgedResult co submitted = "CA" ↔ submitted = jsTrim t)) ∧
      (∀ t, co = some t → jsTrim t ≠ "" → submitted ≠ jsTrim t →
        judgedResult co submitted = "WA")) := by
  constructor
  · intro s hs
    unfold submitAttempt at hs
    split at hs
    · exact absurd hs (by simp)
    · split at hs
      · exact absurd hs (by simp)
      · next problem heq =>
        split at hs
        · exact absurd hs (by simp)
        · dsimp only at hs
          split at hs
          · exact absurd hs (by simp)
          · refine ⟨problem, heq, ?_⟩
            injection hs with h
            rw [← h]
  · intro co submitted
    refine ⟨?_, ?_, ?_⟩
    · unfold judgedResult
      cases co with
      | none => simp [unjudged]
      | some t =>
        by_cases ht : t = ""
        · subst ht
          simp [unjudged, jsTrim, wsChar]
        · simp only [ht, ne_eq, not_false_eq_true, if_true]
          by_cases htr : jsTrim t = ""
          · simp [htr, ht, unjudged]
          · simp only [htr, ne_eq, not_false_eq_true, if_true]
            by_cases he : submitted = jsTrim t <;>
              simp [he, ht, htr, unjudged]
    · intro t hco htr
      subst hco
      unfold judgedResult
      have ht : t ≠ "" := by
        intro h
        exact htr (by simp [h, jsTrim, wsChar])
      simp only [ht, ne_eq, not_false_eq_true, if_true, htr]
      by_cases he : submitted = jsTrim t <;> simp [he, unjudged]
    · intro t hco htr hne
      subst hco
      unfold judgedResult
      have ht : t ≠ "" := by
        intro h
        exact htr (by simp [h, jsTrim, wsChar])
      simp [ht, htr, hne]

/-- C7 witness: on `demoContest` (correct answer `"7"`), submitting
`" 007 "` while not active stores result `"WA"` even though the answers
are numerically equal, and the bridge applies to the accepted record. -/
theorem judged_result_spec_witness :
    (∃ s, submitAttempt demoContest plainUser 2000000 "A" " 007 " = .ok s ∧
      s.result = "WA") ∧
    judgedResult (some "7") "007" = "WA" ∧
    judgedResult (some "7") "7" = "CA" := by
  have hok : submitAttempt demoContest plainUser 2000000 "A" " 007 " =
      .ok ⟨"A", "alice", "WA", "007", 2000000⟩ := by rfl
  have h2 := ((judged_result_spec demoContest plainUser 2000000 "A" " 007 ").2
      (some "7") "007").2.2 "7" rfl (by decide) (by decide)
  exact ⟨⟨_, hok, rfl⟩, h2, by decide⟩

/-! ### C9: the answer-format check -/

/-- C9 counterexample: an admin submitting the ill-formed answer `"7a"` to
the active `demoContest` is rejected with `ForbiddenManagerSubmission`,
not `InvalidAnswerFormat` — the manager check at `part_000:1670` runs
before the format check at `part_000:1692-1696`. -/
theorem invalid_format_cex :
    matchesDigitRegex (jsTrim "7a") = false ∧
    submitAttempt demoContest adminUser 500 "A" "7a" =
      .error .forbiddenManagerSubmission ∧
    submitAttempt demoContest adminUser 500 "A" "7a" ≠
      .error .invalidAnswerFormat := by
  have h : submitAttempt demoContest adminUser 500 "A" "7a" =
      .error .forbiddenManagerSubmission := by rfl
  refine ⟨by decide, h, ?_⟩
  rw [h]
  simp

/-- C9 amended: an ill-formed (non-`^[0-9]+$`) trimmed answer never yields
a stored submission, and the attempt's outcome is independent of every
problem's stored correct answer (no comparison happens); the rejection is
`InvalidAnswerFormat` exactly when the earlier checks — manager check,
problem lookup, limit check — pass. -/
theorem invalid_format_rejection (c : Contest) (u : User) (now : Int)
    (problemId answer : String)
    (hfmt : matchesDigitRegex (jsTrim answer) = false) :
    ledgerAfterSubmit c u now problemId answer = c.submissions ∧
    (∀ s, submitAttempt c u now problemId answer ≠ .ok s) ∧
    ((isContestStartedOrActive c now && canManageContest u c) = false →
      (c.problems.find? (fun p => p.id = problemId)).isSome = true →
      (isContestStartedOrActive c now &&
          decide (effectiveLimit c ≤
            (submissionsForLimit c u.username problemId).length)) = false →
      submitAttempt c u now problemId answer = .error .invalidAnswerFormat) ∧
    (∀ co₁ co₂ : Option String,
      submitAttempt (withCorrect c co₁) u now problemId answer =
        submitAttempt (withCorrect c co₂) u now problemId answer) := by
  have herr : ∀ s, submitAttempt c u now problemId answer ≠ .ok s := by
    intro s hs
    unfold submitAttempt at hs
    split at hs
    · simp at hs
    · split at hs
      · simp at hs
      · split at hs
        · simp at hs
        · dsimp only at hs
          split at hs
          · simp at hs
          · next hcond => exact hcond (by rw [hfmt]; rfl)
  refine ⟨?_, herr, ?_, ?_⟩
  · unfold ledgerAfterSubmit
    cases hsub : submitAttempt c u now problemId answer with
    | ok s => exact absurd hsub (herr s)
    | error e => rfl
  · intro h1 h2 h3
    rw [Option.isSome_iff_exists] at h2
    obtain ⟨problem, h2⟩ := h2
    unfold submitAttempt
    rw [h2]
    simp [h1, h3, hfmt]
  · intro co₁ co₂
    have hiso : ∀ co, isContestStartedOrActive (withCorrect c co) now =
        isContestStartedOrActive c now := fun _ => rfl
    have hmgr : ∀ co, canManageContest u (withCorrect c co) =
        canManageContest u c := fun _ => rfl
    have hlim : ∀ co, effectiveLimit (withCorrect c co) = effectiveLimit c :=
      fun _ => rfl
    have hsl : ∀ co, submissionsForLimit (withCorrect c co) u.username problemId =
        submissionsForLimit c u.username problemId := fun _ => rfl
    have hfind : ∀ co, (withCorrect c co).problems.find? (fun p => p.id = problemId) =
        (c.problems.find? (fun p => p.id = problemId)).map
          (fun p => { p with correctAnswer := co }) := by
      intro co
      unfold withCorrect
      rw [List.find?_map]
      rfl
    unfold submitAttempt
    rw [hiso co₁, hiso co₂, hmgr co₁, hmgr co₂, hfind co₁, hfind co₂,
      hlim co₁, hlim co₂, hsl co₁, hsl co₂]
    cases hf : c.problems.find? (fun p => p.id = problemId) with
    | none => rfl
    | some p => simp [hfmt]

/-- C9 witness: the ill-formed answer `" 7a "` from a non-admin on the
active `demoContest` is rejected with `InvalidAnswerFormat`, nothing is
appended, and the outcome ignores the stored correct answer. -/
theorem invalid_format_rejection_witness :
    ledgerAfterSubmit demoContest plainUser 500 "A" " 7a " =
      demoContest.submissions ∧
    submitAttempt demoContest plainUser 500 "A" " 7a " =
      .error .invalidAnswerFormat ∧
    submitAttempt (withCorrect demoContest (some "99")) plainUser 500 "A" " 7a " =
      submitAttempt (withCorrect demoContest none) plainUser 500 "A" " 7a " := by
  have h := invalid_format_rejection demoContest plainUser 500 "A" " 7a " (by decide)
  exact ⟨h.1, h.2.2.1 (by decide) (by decide) (by decide), h.2.2.2 (some "99") none⟩

/-! ### C4: properties of the best-attempt fold -/

/-- The step on a present current, with the match reduced. -/
lemma repStep_some (cur sub : Submission) :
    repStep (some cur) sub =
      if (cur.result ≠ "CA" ∧ sub.result = "CA")
          ∨ (cur.result ≠ "CA" ∧ sub.result ≠ "CA" ∧ cur.date < sub.date) then
        some sub
      else some cur := rfl

/-- Once the current representative is accepted, a step never replaces it:
both replacement disjuncts require a non-`"CA"` current. -/
lemma repStep_ca_fixed {cur : Submission} (h : cur.result = "CA")
    (s : Submission) : repStep (some cur) s = some cur := by
  rw [repStep_some, if_neg]
  rintro (⟨hne, -⟩ | ⟨hne, -⟩) <;> exact hne h

/-- Acceptance is sticky through any further fold. -/
lemma foldl_repStep_ca {cur : Submission} (h : cur.result = "CA") :
    ∀ g : List Submission, g.foldl repStep (some cur) = some cur := by
  intro g
  induction g with
  | nil => rfl
  | cons s t ih => rw [List.foldl_cons, repStep_ca_fixed h s, ih]

/-- Starting from a non-accepted current, the fold lands on the first
accepted submission of the group as soon as one exists. -/
lemma foldl_repStep_first_ca :
    ∀ (g : List Submission) (c : Submission), c.result ≠ "CA" →
      (∃ s ∈ g, s.result = "CA") →
      g.foldl repStep (some c) = g.find? (fun s => s.result = "CA") := by
  intro g
  induction g with
  | nil => rintro c - ⟨s, hs, -⟩; exact absurd hs (List.not_mem_nil s)
  | cons s t ih =>
    intro c hc hex
    by_cases hs : s.result = "CA"
    · have hstep : repStep (some c) s = some s := by
        rw [repStep_some, if_pos (Or.inl ⟨hc, hs⟩)]
      rw [List.foldl_cons, hstep, foldl_repStep_ca hs t, List.find?_cons_of_pos]
      simp [hs]
    · have hex' : ∃ x ∈ t, x.result = "CA" := by
        obtain ⟨x, hx, hxca⟩ := hex
        rcases List.mem_cons.1 hx with rfl | hx'
        · exact absurd hxca hs
        · exact ⟨x, hx', hxca⟩
      have hfind : (s :: t).find? (fun x => x.result = "CA") =
          t.find? (fun x => x.result = "CA") :=
        List.find?_cons_of_neg _ (by simp [hs])
      rw [List.foldl_cons, hfind, repStep_some]
      by_cases hrep : (c.result ≠ "CA" ∧ s.result = "CA")
          ∨ (c.result ≠ "CA" ∧ s.result ≠ "CA" ∧ c.date < s.date)
      · rw [if_pos hrep]
        exact ih s hs hex'
      · rw [if_neg hrep]
        exact ih c hc hex'

/-- With no accepted submission anywhere, the fold keeps a non-accepted
representative whose timestamp bounds the whole group (ties keep the
earlier-seen element, as replacement needs a strictly later challenger). -/
lemma foldl_repStep_non_ca :
    ∀ (g : List Submission) (c : Submission), c.result ≠ "CA" →
      (∀ s ∈ g, s.result ≠ "CA") →
      ∃ m, g.foldl repStep (some c) = some m ∧ (m = c ∨ m ∈ g) ∧
        m.result ≠ "CA" ∧ c.date ≤ m.date ∧ ∀ s ∈ g, s.date ≤ m.date := by
  intro g
  induction g with
  | nil => intro c hc _; exact ⟨c, rfl, Or.inl rfl, hc, le_refl _, by simp⟩
  | cons s t ih =>
    intro c hc hall
    have hs : s.result ≠ "CA" := hall s (List.mem_cons_self s t)
    have hall' : ∀ x ∈ t, x.result ≠ "CA" := fun x hx => hall x (List.mem_cons_of_mem s hx)
    rw [List.foldl_cons]
    by_cases hlt : c.date < s.date
    · have hstep : repStep (some c) s = some s := by
        rw [repStep_some, if_pos (Or.inr ⟨hc, hs, hlt⟩)]
      rw [hstep]
      obtain ⟨m, hm, hmem, hmca, hdate, hbound⟩ := ih s hs hall'
      refine ⟨m, hm, ?_, hmca, le_trans (le_of_lt hlt) hdate, ?_⟩
      · rcases hmem with rfl | hmem
        · exact Or.inr (List.mem_cons_self m t)
        · exact Or.inr (List.mem_cons_of_mem s hmem)
      · intro x hx
        rcases List.mem_cons.1 hx with rfl | hx'
        · exact hdate
        · exact hbound x hx'
    · have hstep : repStep (some c) s = some c := by
        rw [repStep_some, if_neg]
        rintro (⟨-, hca⟩ | ⟨-, -, hlt'⟩)
        · exact hs hca
        · exact hlt hlt'
      rw [hstep]
      obtain ⟨m, hm, hmem, hmca, hdate, hbound⟩ := ih c hc hall'
      refine ⟨m, hm, ?_, hmca, hdate, ?_⟩
      · rcases hmem with rfl | hmem
        · exact Or.inl rfl
        · exact Or.inr (List.mem_cons_of_mem s hmem)
      · intro x hx
        rcases List.mem_cons.1 hx with rfl | hx'
        · exact le_trans (not_lt.1 hlt) hdate
        · exact hbound x hx'

/-- The fold finds the first accepted submission of a group. -/
lemma groupRepresentative_first_ca {g : List Submission}
    (hex : ∃ s ∈ g, s.result = "CA") :
    groupRepresentative g = g.find? (fun s => s.result = "CA") := by
  cases g with
  | nil => obtain ⟨s, hs, -⟩ := hex; exact absurd hs (List.not_mem_nil s)
  | cons s t =>
    unfold groupRepresentative
    rw [List.foldl_cons]
    show t.foldl repStep (some s) = _
    by_cases hs : s.result = "CA"
    · rw [foldl_repStep_ca hs t, List.find?_cons_of_pos]
      simp [hs]
    · have hex' : ∃ x ∈ t, x.result = "CA" := by
        obtain ⟨x, hx, hxca⟩ := hex
        rcases List.mem_cons.1 hx with rfl | hx'
        · exact absurd hxca hs
        · exact ⟨x, hx', hxca⟩
      rw [foldl_repStep_first_ca t s hs hex', List.find?_cons_of_neg _ (by simp [hs])]

/-- The fold of an all-rejected nonempty group keeps a latest-timestamped
member. -/
lemma groupRepresentative_non_ca {g : List Submission} (hne : g ≠ [])
    (hall : ∀ s ∈ g, s.result ≠ "CA") :
    ∃ m, groupRepresentative g = some m ∧ m ∈ g ∧ m.result ≠ "CA" ∧
      ∀ s ∈ g, s.date ≤ m.date := by
  cases g with
  | nil => exact absurd rfl hne
  | cons s t =>
    have hs : s.result ≠ "CA" := hall s (List.mem_cons_self s t)
    have hall' : ∀ x ∈ t, x.result ≠ "CA" := fun x hx => hall x (List.mem_cons_of_mem s hx)
    obtain ⟨m, hm, hmem, hmca, hdate, hbound⟩ := foldl_repStep_non_ca t s hs hall'
    refine ⟨m, ?_, ?_, hmca, ?_⟩
    · unfold groupRepresentative
      rw [List.foldl_cons]
      exact hm
    · rcases hmem with rfl | hmem
      · exact List.mem_cons_self m t
      · exact List.mem_cons_of_mem s hmem
    · intro x hx
      rcases List.mem_cons.1 hx with rfl | hx'
      · exact hdate
      · exact hbound x hx'

/-- The representative is accepted iff the group has an accepted
submission. -/
lemma groupRepresentative_ca_iff (g : List Submission) :
    (∃ m, groupRepresentative g = some m ∧ m.result = "CA") ↔
      ∃ s ∈ g, s.result = "CA" := by
  constructor
  · rintro ⟨m, hm, hca⟩
    by_contra hno
    push_neg at hno
    cases hg : g with
    | nil => rw [hg] at hm; exact absurd hm (by simp [groupRepresentative])
    | cons s t =>
      obtain ⟨m', hm', -, hm'ca, -⟩ :=
        groupRepresentative_non_ca (g := g) (by rw [hg]; simp)
          (by intro x hx; exact hno x hx)
      rw [hm] at hm'
      injection hm' with h
      exact hm'ca (h ▸ hca)
  · intro hex
    rw [groupRepresentative_first_ca hex]
    have hsome : (g.find? (fun s => s.result = "CA")).isSome = true := by
      rw [List.find?_isSome]
      obtain ⟨s, hs, hsca⟩ := hex
      exact ⟨s, hs, by simp [hsca]⟩
    obtain ⟨m, hm⟩ := Option.isSome_iff_exists.1 hsome
    exact ⟨m, hm, by simpa using List.find?_some hm⟩

/-- C4: for every group folded in arrival order, (i) once the
representative is accepted no later submissions change it, (ii) with any
accepted submission present the representative is the first accepted one,
and (iii) with none it is a latest-timestamped non-accepted member. -/
theorem best_attempt_resolver (g g₁ g₂ : List Submission) :
    ((∃ m, groupRepresentative g₁ = some m ∧ m.result = "CA") →
      groupRepresentative (g₁ ++ g₂) = groupRepresentative g₁) ∧
    ((∃ s ∈ g, s.result = "CA") →
      groupRepresentative g = g.find? (fun s => s.result = "CA")) ∧
    ((g ≠ [] ∧ ∀ s ∈ g, s.result ≠ "CA") →
      ∃ m, groupRepresentative g = some m ∧ m ∈ g ∧ m.result ≠ "CA" ∧
        ∀ s ∈ g, s.date ≤ m.date) := by
  refine ⟨?_, ?_, ?_⟩
  · rintro ⟨m, hm, hca⟩
    unfold groupRepresentative at hm ⊢
    rw [List.foldl_append, hm, foldl_repStep_ca hca g₂]
  · exact groupRepresentative_first_ca
  · rintro ⟨hne, hall⟩
    exact groupRepresentative_non_ca hne hall

/-- An early wrong attempt. -/
def demoWA1 : Submission := ⟨"A", "alice", "WA", "1", 10000⟩

/-- The first accepted attempt. -/
def demoCA : Submission := ⟨"A", "alice", "CA", "7", 70000⟩

/-- A late wrong attempt, after acceptance. -/
def demoWA2 : Submission := ⟨"A", "alice", "WA", "2", 90000⟩

/-- C4 witness: acceptance at `demoCA` is sticky across the later
`demoWA2`, the representative of the full group is the first accepted
submission, and an all-wrong group keeps its latest-timestamped member. -/
theorem best_attempt_resolver_witness :
    groupRepresentative ([demoWA1, demoCA] ++ [demoWA2]) =
      groupRepresentative [demoWA1, demoCA] ∧
    groupRepresentative [demoWA1, demoCA, demoWA2] =
      List.find? (fun s => s.result = "CA") [demoWA1, demoCA, demoWA2] ∧
    ∃ m, groupRepresentative [demoWA2, demoWA1] = some m ∧
      m ∈ [demoWA2, demoWA1] ∧ m.result ≠ "CA" ∧
      ∀ s ∈ [demoWA2, demoWA1], s.date ≤ m.date := by
  refine ⟨?_, ?_, ?_⟩
  · exact (best_attempt_resolver [] [demoWA1, demoCA] [demoWA2]).1
      ⟨demoCA, by rfl, by decide⟩
  · exact (best_attempt_resolver [demoWA1, demoCA, demoWA2] [] []).2.1
      (by decide)
  · exact (best_attempt_resolver [demoWA2, demoWA1] [] []).2.2
      ⟨by decide, by decide⟩

/-! ### Association-list lemmas for the ranking fold -/

section AList

variable {β : Type}

lemma getv_setk_self (l : List (String × β)) (k : String) (v : β) :
    getv (setk l k v) k = some v := by
  induction l with
  | nil => simp [setk, getv]
  | cons hd t ih =>
    by_cases h : hd.1 = k
    · simp [setk, h, getv]
    · simp [setk, h, getv, ih]

lemma getv_setk_ne (l : List (String × β)) (k k' : String) (v : β)
    (h : k' ≠ k) : getv (setk l k v) k' = getv l k' := by
  have hk : k ≠ k' := Ne.symm h
  induction l with
  | nil => simp [setk, getv, hk]
  | cons hd t ih =>
    by_cases hh : hd.1 = k
    · simp [setk, hh, getv, hk]
    · by_cases hk' : hd.1 = k'
      · simp [setk, hh, getv, hk', h]
      · simp [setk, hh, getv, hk', ih]

lemma getv_isSome_iff_mem (l : List (String × β)) (k : String) :
    (getv l k).isSome = true ↔ k ∈ l.map Prod.fst := by
  induction l with
  | nil => simp [getv]
  | cons hd t ih =>
    by_cases h : hd.1 = k
    · simp [getv, h]
    · simp [getv, h, ih, Ne.symm h]

lemma getv_eq_none_iff (l : List (String × β)) (k : String) :
    getv l k = none ↔ k ∉ l.map Prod.fst := by
  rw [← getv_isSome_iff_mem]
  cases getv l k <;> simp

lemma setk_keys_of_mem (l : List (String × β)) (k : String) (v : β)
    (h : k ∈ l.map Prod.fst) :
    (setk l k v).map Prod.fst = l.map Prod.fst := by
  induction l with
  | nil => simp at h
  | cons hd t ih =>
    by_cases hh : hd.1 = k
    · simp [setk, hh]
    · have ht : k ∈ t.map Prod.fst := by
        rcases List.mem_map.1 h with ⟨x, hx, hxk⟩
        rcases List.mem_cons.1 hx with rfl | hx'
        · exact absurd hxk hh
        · exact List.mem_map.2 ⟨x, hx', hxk⟩
      simp [setk, hh, ih ht]

lemma setk_keys_of_not_mem (l : List (String × β)) (k : String) (v : β)
    (h : k ∉ l.map Prod.fst) :
    (setk l k v).map Prod.fst = l.map Prod.fst ++ [k] := by
  induction l with
  | nil => simp [setk]
  | cons hd t ih =>
    have hh : hd.1 ≠ k := by
      intro he
      exact h (by simp [he])
    have ht : k ∉ t.map Prod.fst := fun hm => h (by simp [hm])
    simp [setk, hh, ih ht]

lemma setk_keys_nodup (l : List (String × β)) (k : String) (v : β)
    (h : (l.map Prod.fst).Nodup) : ((setk l k v).map Prod.fst).Nodup := by
  by_cases hm : k ∈ l.map Prod.fst
  · rw [setk_keys_of_mem l k v hm]
    exact h
  · rw [setk_keys_of_not_mem l k v hm]
    simp [List.nodup_append, h, hm]

lemma getv_of_mem_of_nodup (l : List (String × β)) (k : String) (v : β)
    (hmem : (k, v) ∈ l) (hnd : (l.map Prod.fst).Nodup) : getv l k = some v := by
  induction l with
  | nil => simp at hmem
  | cons hd t ih =>
    rcases List.mem_cons.1 hmem with rfl | hmem'
    · simp [getv]
    · have hh : hd.1 ≠ k := by
        intro he
        have : k ∈ t.map Prod.fst := List.mem_map.2 ⟨(k, v), hmem', rfl⟩
        rw [List.map_cons, List.nodup_cons, he] at hnd
        exact hnd.1 this
      rw [List.map_cons, List.nodup_cons] at hnd
      simp [getv, hh, ih hmem' hnd.2]

lemma mem_of_getv_eq_some (l : List (String × β)) (k : String) (v : β)
    (h : getv l k = some v) : (k, v) ∈ l := by
  induction l with
  | nil => simp [getv] at h
  | cons hd t ih =>
    by_cases hh : hd.1 = k
    · rw [getv, if_pos hh] at h
      have he : (k, v) = hd := Prod.ext hh.symm (Option.some.inj h).symm
      rw [he]
      exact List.mem_cons_self hd t
    · rw [getv, if_neg hh] at h
      exact List.mem_cons_of_mem hd (ih h)

lemma setk_mem_of_ne (l : List (String × β)) (k k' : String) (v w : β)
    (h : k' ≠ k) : (k', w) ∈ setk l k v ↔ (k', w) ∈ l := by
  induction l with
  | nil => simp [setk, h]
  | cons hd t ih =>
    by_cases hh : hd.1 = k
    · subst hh
      simp only [setk, if_pos rfl]
      constructor
      · rintro h'
        rcases List.mem_cons.1 h' with he | h'
        · exact absurd (congrArg Prod.fst he) h
        · exact List.mem_cons_of_mem hd h'
      · rintro h'
        rcases List.mem_cons.1 h' with rfl | h'
        · exact absurd rfl h
        · exact List.mem_cons_of_mem _ h'
    · simp [setk, hh, List.mem_cons, ih]

lemma sum_map_setk_none (f : String × β → Nat) (l : List (String × β))
    (p : String) (v : β) (h : getv l p = none) :
    ((setk l p v).map f).sum = (l.map f).sum + f (p, v) := by
  induction l with
  | nil => simp [setk]
  | cons hd t ih =>
    have hh : hd.1 ≠ p := by
      intro he
      rw [getv, if_pos he] at h
      exact Option.noConfusion h
    rw [getv, if_neg hh] at h
    simp [setk, hh, ih h, Nat.add_assoc]

lemma sum_map_setk_some (f : String × β → Nat) (l : List (String × β))
    (p : String) (v w : β) (h : getv l p = some w) :
    ((setk l p v).map f).sum + f (p, w) = (l.map f).sum + f (p, v) := by
  induction l with
  | nil => simp [getv] at h
  | cons hd t ih =>
    obtain ⟨hk, hv⟩ := hd
    by_cases hh : hk = p
    · rw [getv, if_pos hh] at h
      obtain rfl := hh
      obtain rfl := Option.some.inj h
      have hset : setk ((hk, hv) :: t) hk v = (hk, v) :: t := by simp [setk]
      rw [hset]
      simp only [List.map_cons, List.sum_cons]
      omega
    · rw [getv, if_neg hh] at h
      simp only [setk, if_neg hh, List.map_cons, List.sum_cons]
      have h2 := ih h
      omega

lemma sum_map_setk_congr (f : String × β → Nat) (l : List (String × β))
    (p : String) (v w : β) (h : getv l p = some w) (he : f (p, v) = f (p, w)) :
    ((setk l p v).map f).sum = (l.map f).sum := by
  have h2 := sum_map_setk_some f l p v w h
  rw [he] at h2
  omega

lemma foldl_max_pull (l : List ℚ) :
    ∀ a b : ℚ, l.foldl max (max a b) = max a (l.foldl max b) := by
  induction l with
  | nil => intro a b; rfl
  | cons x xs ih =>
    intro a b
    rw [List.foldl_cons, List.foldl_cons, max_assoc, ih]

lemma le_foldl_max (l : List ℚ) : ∀ a : ℚ, a ≤ l.foldl max a := by
  induction l with
  | nil => intro a; exact le_refl a
  | cons x xs ih =>
    intro a
    exact le_trans (le_max_left a x) (ih (max a x))

lemma foldl_max_map_setk_none (f : String × β → ℚ) (l : List (String × β))
    (p : String) (v : β) (h : getv l p = none) :
    ∀ a : ℚ, ((setk l p v).map f).foldl max a =
      max ((l.map f).foldl max a) (f (p, v)) := by
  induction l with
  | nil => intro a; simp [setk]
  | cons hd t ih =>
    have hh : hd.1 ≠ p := by
      intro he
      rw [getv, if_pos he] at h
      exact Option.noConfusion h
    rw [getv, if_neg hh] at h
    intro a
    simp only [setk, if_neg hh, List.map_cons, List.foldl_cons]
    exact ih h (max a (f hd))

lemma foldl_max_map_setk_some (f : String × β → ℚ) (l : List (String × β))
    (p : String) (v w : β) (h : getv l p = some w) :
    ∀ a : ℚ, f (p, w) ≤ a →
      ((setk l p v).map f).foldl max a =
        max ((l.map f).foldl max a) (f (p, v)) := by
  induction l with
  | nil => simp [getv] at h
  | cons hd t ih =>
    intro a ha
    obtain ⟨hk, hv⟩ := hd
    by_cases hh : hk = p
    · rw [getv, if_pos hh] at h
      obtain rfl := hh
      obtain rfl := Option.some.inj h
      have hset : setk ((hk, hv) :: t) hk v = (hk, v) :: t := by simp [setk]
      rw [hset]
      simp only [List.map_cons, List.foldl_cons]
      rw [max_eq_left ha, max_comm a (f (hk, v)), foldl_max_pull]
      exact max_comm _ _
    · rw [getv, if_neg hh] at h
      simp only [setk, if_neg hh, List.map_cons, List.foldl_cons]
      exact ih h (max a (f (hk, hv))) (le_trans ha (le_max_left a (f (hk, hv))))

lemma foldl_max_map_setk_congr (f : String × β → ℚ) (l : List (String × β))
    (p : String) (v w : β) (h : getv l p = some w) (he : f (p, v) = f (p, w)) :
    ∀ a : ℚ, ((setk l p v).map f).foldl max a = (l.map f).foldl max a := by
  induction l with
  | nil => simp [getv] at h
  | cons hd t ih =>
    intro a
    obtain ⟨hk, hv⟩ := hd
    by_cases hh : hk = p
    · rw [getv, if_pos hh] at h
      obtain rfl := hh
      obtain rfl := Option.some.inj h
      have hset : setk ((hk, hv) :: t) hk v = (hk, v) :: t := by simp [setk]
      rw [hset]
      simp only [List.map_cons, List.foldl_cons, he]
    · rw [getv, if_neg hh] at h
      simp only [setk, if_neg hh, List.map_cons, List.foldl_cons]
      exact ih h (max a (f (hk, hv)))

end AList

/-! ### Characterizing the ranking fold -/

/-- The (user, problem) subsequence of a submission stream. -/
def grpl (ss : List Submission) (u p : String) : List Submission :=
  ss.filter (fun s => decide (s.user = u ∧ s.problemId = p))

/-- The per-problem fold from the default local state. -/
def pfold (c : Contest) (g : List Submission) : ProbStat :=
  g.foldl (probStep c) {}

/-- The ranking fold over an arbitrary stream. -/
def foldState (c : Contest) (ss : List Submission) : RState :=
  ss.foldl (rankStep c) {}

/-- After acceptance the per-problem state keeps its status, acceptance
time and pre-acceptance wrong count (`part_000:1158-1176`: only
`waCount` can still change). -/
lemma foldl_probStep_ca (c : Contest) :
    ∀ (g : List Submission) (ps : ProbStat), ps.status = "CA" →
      (g.foldl (probStep c) ps).status = "CA" ∧
      (g.foldl (probStep c) ps).time = ps.time ∧
      (g.foldl (probStep c) ps).waCountBeforeCA = ps.waCountBeforeCA := by
  intro g
  induction g with
  | nil => intro ps h; exact ⟨h, rfl, rfl⟩
  | cons s t ih =>
    intro ps h
    have h1 : (probStep c ps s).status = "CA" ∧
        (probStep c ps s).time = ps.time ∧
        (probStep c ps s).waCountBeforeCA = ps.waCountBeforeCA := by
      unfold probStep
      rw [if_neg (by rintro ⟨-, hne⟩; exact hne h),
        if_neg (by rintro ⟨-, hne⟩; exact hne h)]
      split
      · exact ⟨h, rfl, rfl⟩
      · exact ⟨h, rfl, rfl⟩
    rw [List.foldl_cons]
    obtain ⟨a1, a2, a3⟩ := ih (probStep c ps s) h1.1
    exact ⟨a1, a2.trans h1.2.1, a3.trans h1.2.2⟩

/-- Characterization of the per-problem fold from a pre-acceptance state:
the status becomes `"CA"` iff the group has an accepted submission, the
recorded time is that of the first accepted submission, and the
pre-acceptance wrong count adds the `"WA"` submissions seen before the
first acceptance. -/
lemma foldl_probStep_char (c : Contest) :
    ∀ (g : List Submission) (ps : ProbStat), ps.status ≠ "CA" → ps.time = none →
      ((g.foldl (probStep c) ps).status = "CA" ↔ ∃ s ∈ g, s.result = "CA") ∧
      ((g.foldl (probStep c) ps).time =
        (g.find? (fun s => s.result = "CA")).map (timeSinceStart c)) ∧
      ((g.foldl (probStep c) ps).waCountBeforeCA = ps.waCountBeforeCA +
        (g.takeWhile (fun s => s.result ≠ "CA")).countP (fun s => s.result = "WA")) := by
  intro g
  induction g with
  | nil =>
    intro ps hps htime
    refine ⟨by simp [hps], by simp [htime], by simp⟩
  | cons s t ih =>
    intro ps hps htime
    by_cases hs : s.result = "CA"
    · have hstep : probStep c ps s =
          { ps with status := "CA", time := some (timeSinceStart c s) } := by
        unfold probStep
        rw [if_pos ⟨hs, hps⟩]
      rw [List.foldl_cons, hstep]
      obtain ⟨a1, a2, a3⟩ := foldl_probStep_ca c t
        { ps with status := "CA", time := some (timeSinceStart c s) } rfl
      refine ⟨?_, ?_, ?_⟩
      · simp only [a1]
        exact ⟨fun _ => ⟨s, List.mem_cons_self s t, hs⟩, fun _ => trivial⟩
      · rw [a2, List.find?_cons_of_pos t (by simp [hs])]
        all_goals trivial
      · rw [a3]
        simp [List.takeWhile_cons, hs]
    · have hne : (fun s : Submission => decide (s.result ≠ "CA")) s = true := by
        simp [hs]
      by_cases hw : s.result = "WA"
      · have hstep : probStep c ps s =
            { status := "WA"
              time := ps.time
              waCountBeforeCA := ps.waCountBeforeCA + 1
              waCount := ps.waCount + 1 } := by
          unfold probStep
          rw [if_neg (by rintro ⟨hca, -⟩; exact hs hca), if_pos ⟨hw, hps⟩]
        rw [List.foldl_cons, hstep]
        obtain ⟨a1, a2, a3⟩ := ih
          { status := "WA"
            time := ps.time
            waCountBeforeCA := ps.waCountBeforeCA + 1
            waCount := ps.waCount + 1 }
          (by simp) (by simp [htime])
        refine ⟨?_, ?_, ?_⟩
        · rw [a1]
          constructor
          · rintro ⟨x, hx, hxca⟩
            exact ⟨x, List.mem_cons_of_mem s hx, hxca⟩
          · rintro ⟨x, hx, hxca⟩
            rcases List.mem_cons.1 hx with rfl | hx'
            · exact absurd hxca hs
            · exact ⟨x, hx', hxca⟩
        · rw [a2, List.find?_cons_of_neg t (by simp [hs])]
        · rw [a3]
          simp [List.takeWhile_cons, List.countP_cons, hs, hw]
          omega
      · have hstep : probStep c ps s = ps := by
          unfold probStep
          rw [if_neg (by rintro ⟨hca, -⟩; exact hs hca),
            if_neg (by rintro ⟨hca, -⟩; exact hw hca), if_neg hw]
        rw [List.foldl_cons, hstep]
        obtain ⟨a1, a2, a3⟩ := ih ps hps htime
        refine ⟨?_, ?_, ?_⟩
        · rw [a1]
          constructor
          · rintro ⟨x, hx, hxca⟩
            exact ⟨x, List.mem_cons_of_mem s hx, hxca⟩
          · rintro ⟨x, hx, hxca⟩
            rcases List.mem_cons.1 hx with rfl | hx'
            · exact absurd hxca hs
            · exact ⟨x, hx', hxca⟩
        · rw [a2, List.find?_cons_of_neg t (by simp [hs])]
        · rw [a3]
          simp [List.takeWhile_cons, List.countP_cons, hs, hw]

/-- The score contribution of one per-problem entry (`part_000:1161`). -/
def scoreContrib (c : Contest) (pr : String × ProbStat) : Nat :=
  if pr.2.status = "CA" then scoreFor c pr.1 else 0

/-- The acceptance-time contribution of one per-problem entry; non-accepted
entries contribute 0, which is also the fold's base
(`part_000:1162-1165`). -/
def timeContrib (pr : String × ProbStat) : ℚ :=
  if pr.2.status = "CA" then pr.2.time.getD 0 else 0

/-- A first-acceptance step: the `CA` branch of `part_000:1158-1169`. -/
lemma probStep_new (c : Contest) (ps : ProbStat) (sub : Submission)
    (h : sub.result = "CA" ∧ ps.status ≠ "CA") :
    probStep c ps sub =
      { ps with
        status := "CA"
        time := some (timeSinceStart c sub) } := by
  unfold probStep
  rw [if_pos h]

/-- A non-first-acceptance step keeps acceptance status and time. -/
lemma probStep_not_new (c : Contest) (ps : ProbStat) (sub : Submission)
    (h : ¬(sub.result = "CA" ∧ ps.status ≠ "CA")) :
    ((probStep c ps sub).status = "CA" ↔ ps.status = "CA") ∧
    (probStep c ps sub).time = ps.time := by
  unfold probStep
  rw [if_neg h]
  by_cases hw : sub.result = "WA" ∧ ps.status ≠ "CA"
  · rw [if_pos hw]
    exact ⟨⟨fun hh => absurd hh (by simp), fun hh => absurd hh hw.2⟩, rfl⟩
  · rw [if_neg hw]
    split
    · exact ⟨Iff.rfl, rfl⟩
    · exact ⟨Iff.rfl, rfl⟩

lemma grpl_append_hit (ss : List Submission) (sub : Submission) :
    grpl (ss ++ [sub]) sub.user sub.problemId =
      grpl ss sub.user sub.problemId ++ [sub] := by
  unfold grpl
  rw [List.filter_append]
  simp

lemma grpl_append_miss (ss : List Submission) (sub : Submission) (u p : String)
    (h : ¬(sub.user = u ∧ sub.problemId = p)) :
    grpl (ss ++ [sub]) u p = grpl ss u p := by
  unfold grpl
  rw [List.filter_append]
  simp [h]

lemma grpl_empty_of_absent (ss : List Submission) (u p : String)
    (h : ∀ s ∈ ss, s.user ≠ u) : grpl ss u p = [] := by
  unfold grpl
  rw [List.filter_eq_nil_iff]
  intro s hs
  simp [h s hs]

lemma pfold_append (c : Contest) (g : List Submission) (sub : Submission) :
    pfold c (g ++ [sub]) = probStep c (pfold c g) sub := by
  unfold pfold
  rw [List.foldl_append]
  rfl

/-- One ranking-fold step preserves the per-user characterization: the
problem entries track the per-problem folds of the (user, problem)
subsequences, the score is the sum of entry score contributions, and
`lastCATime` is the running maximum of entry time contributions. -/
lemma updatedUserStat_char (c : Contest) (ss : List Submission) (sub : Submission)
    (ustat : UserStat)
    (hkeys : (ustat.problems.map Prod.fst).Nodup)
    (hchar : ∀ p, getv ustat.problems p =
      if grpl ss sub.user p = [] then none
      else some (pfold c (grpl ss sub.user p)))
    (hscore : ustat.score = (ustat.problems.map (scoreContrib c)).sum)
    (htime : ustat.lastCATime = (ustat.problems.map timeContrib).foldl max 0) :
    (((updatedUserStat c ustat sub).problems.map Prod.fst).Nodup) ∧
    (∀ p, getv (updatedUserStat c ustat sub).problems p =
      if grpl (ss ++ [sub]) sub.user p = [] then none
      else some (pfold c (grpl (ss ++ [sub]) sub.user p))) ∧
    (updatedUserStat c ustat sub).score =
      ((updatedUserStat c ustat sub).problems.map (scoreContrib c)).sum ∧
    (updatedUserStat c ustat sub).lastCATime =
      ((updatedUserStat c ustat sub).problems.map timeContrib).foldl max 0 := by
  have hpstat : ((getv ustat.problems sub.problemId).getD {}) =
      pfold c (grpl ss sub.user sub.problemId) := by
    rw [hchar sub.problemId]
    by_cases hg : grpl ss sub.user sub.problemId = []
    · rw [if_pos hg, hg]
      rfl
    · rw [if_neg hg]
      rfl
  have hproblems : (updatedUserStat c ustat sub).problems =
      setk ustat.problems sub.problemId
        (probStep c ((getv ustat.problems sub.problemId).getD {}) sub) := rfl
  have hscoreStep : (updatedUserStat c ustat sub).score =
      ustat.score + (if isNewCA ustat sub then scoreFor c sub.problemId else 0) := rfl
  have htimeStep : (updatedUserStat c ustat sub).lastCATime =
      (if isNewCA ustat sub then max ustat.lastCATime (timeSinceStart c sub)
       else ustat.lastCATime) := rfl
  refine ⟨?_, ?_, ?_, ?_⟩
  · rw [hproblems]
    exact setk_keys_nodup _ _ _ hkeys
  · intro p
    by_cases hp : p = sub.problemId
    · subst hp
      rw [hproblems, getv_setk_self, grpl_append_hit, pfold_append, hpstat]
      rw [if_neg (by simp)]
    · rw [hproblems, getv_setk_ne _ _ _ _ hp,
        grpl_append_miss ss sub sub.user p (fun hc => hp hc.2.symm)]
      exact hchar p
  · by_cases hnew : sub.result = "CA" ∧
        ((getv ustat.problems sub.problemId).getD {}).status ≠ "CA"
    · have hb : isNewCA ustat sub = true := by
        unfold isNewCA
        simp only [decide_eq_true_eq]
        exact hnew
      rw [hscoreStep, hb, if_pos rfl, hproblems]
      cases hv : getv ustat.problems sub.problemId with
      | none =>
        simp only [hv, Option.getD_none] at hnew ⊢
        have hcontrib : scoreContrib c (sub.problemId, probStep c {} sub) =
            scoreFor c sub.problemId := by
          unfold scoreContrib
          rw [if_pos (by rw [probStep_new c {} sub hnew])]
        rw [sum_map_setk_none (scoreContrib c) _ _ _ hv, hcontrib, hscore]
      | some w =>
        simp only [hv, Option.getD_some] at hnew ⊢
        have hcontrib : scoreContrib c (sub.problemId, probStep c w sub) =
            scoreFor c sub.problemId := by
          unfold scoreContrib
          rw [if_pos (by rw [probStep_new c w sub hnew])]
        have hw0 : scoreContrib c (sub.problemId, w) = 0 := by
          unfold scoreContrib
          rw [if_neg hnew.2]
        have h2 := sum_map_setk_some (scoreContrib c) ustat.problems sub.problemId
          (probStep c w sub) w hv
        rw [hw0, hcontrib] at h2
        rw [hscore]
        omega
    · have hb : isNewCA ustat sub = false := by
        unfold isNewCA
        simp only [decide_eq_false_iff_not]
        exact hnew
      rw [hscoreStep, hb, if_neg (by simp), hproblems]
      cases hv : getv ustat.problems sub.problemId with
      | none =>
        simp only [hv, Option.getD_none] at hnew ⊢
        obtain ⟨hiff, -⟩ := probStep_not_new c {} sub hnew
        have hcontrib : scoreContrib c (sub.problemId, probStep c {} sub) = 0 := by
          unfold scoreContrib
          rw [if_neg]
          intro hca
          exact absurd (hiff.1 hca) (by decide)
        rw [sum_map_setk_none (scoreContrib c) _ _ _ hv, hcontrib, hscore]
      | some w =>
        simp only [hv, Option.getD_some] at hnew ⊢
        obtain ⟨hiff, -⟩ := probStep_not_new c w sub hnew
        have hcontrib : scoreContrib c (sub.problemId, probStep c w sub) =
            scoreContrib c (sub.problemId, w) := by
          unfold scoreContrib
          exact if_congr hiff rfl rfl
        rw [sum_map_setk_congr (scoreContrib c) _ _ _ w hv hcontrib, hscore]
        omega
  · by_cases hnew : sub.result = "CA" ∧
        ((getv ustat.problems sub.problemId).getD {}).status ≠ "CA"
    · have hb : isNewCA ustat sub = true := by
        unfold isNewCA
        simp only [decide_eq_true_eq]
        exact hnew
      rw [htimeStep, hb, if_pos rfl, hproblems]
      cases hv : getv ustat.problems sub.problemId with
      | none =>
        simp only [hv, Option.getD_none] at hnew ⊢
        have hcontrib : timeContrib (sub.problemId, probStep c {} sub) =
            timeSinceStart c sub := by
          rw [probStep_new c {} sub hnew]
          unfold timeContrib
          rfl
        rw [foldl_max_map_setk_none timeContrib _ _ _ hv 0, hcontrib, htime]
      | some w =>
        simp only [hv, Option.getD_some] at hnew ⊢
        have hcontrib : timeContrib (sub.problemId, probStep c w sub) =
            timeSinceStart c sub := by
          rw [probStep_new c w sub hnew]
          unfold timeContrib
          rfl
        have hw0 : timeContrib (sub.problemId, w) ≤ 0 := by
          unfold timeContrib
          rw [if_neg hnew.2]
        rw [foldl_max_map_setk_some timeContrib _ _ _ w hv 0 hw0, hcontrib, htime]
    · have hb : isNewCA ustat sub = false := by
        unfold isNewCA
        simp only [decide_eq_false_iff_not]
        exact hnew
      rw [htimeStep, hb, if_neg (by simp), hproblems]
      cases hv : getv ustat.problems sub.problemId with
      | none =>
        simp only [hv, Option.getD_none] at hnew ⊢
        obtain ⟨hiff, -⟩ := probStep_not_new c {} sub hnew
        have hcontrib : timeContrib (sub.problemId, probStep c {} sub) = 0 := by
          unfold timeContrib
          rw [if_neg]
          intro hca
          exact absurd (hiff.1 hca) (by decide)
        rw [foldl_max_map_setk_none timeContrib _ _ _ hv 0, hcontrib, htime]
        exact (max_eq_left (le_foldl_max _ 0)).symm
      | some w =>
        simp only [hv, Option.getD_some] at hnew ⊢
        obtain ⟨hiff, htm⟩ := probStep_not_new c w sub hnew
        have hcontrib : timeContrib (sub.problemId, probStep c w sub) =
            timeContrib (sub.problemId, w) := by
          unfold timeContrib
          exact if_congr hiff (by rw [htm]) rfl
        rw [foldl_max_map_setk_congr timeContrib _ _ _ w hv hcontrib 0, htime]

/-- Characterization of the ranking fold over an arbitrary stream: the
user keys are exactly the users appearing in the stream (no duplicates),
and each user's stat satisfies the per-user characterization. -/
lemma foldState_char (c : Contest) (ss : List Submission) :
    ((foldState c ss).stats.map Prod.fst).Nodup ∧
    (∀ u, (getv (foldState c ss).stats u).isSome = true ↔ ∃ s ∈ ss, s.user = u) ∧
    (∀ u ust, getv (foldState c ss).stats u = some ust →
      (ust.problems.map Prod.fst).Nodup ∧
      (∀ p, getv ust.problems p =
        if grpl ss u p = [] then none else some (pfold c (grpl ss u p))) ∧
      ust.score = (ust.problems.map (scoreContrib c)).sum ∧
      ust.lastCATime = (ust.problems.map timeContrib).foldl max 0) := by
  induction ss using List.reverseRecOn with
  | nil =>
    refine ⟨?_, ?_, ?_⟩
    · show (([] : List (String × UserStat)).map Prod.fst).Nodup
      simp
    · intro u
      show (none : Option UserStat).isSome = true ↔ ∃ s ∈ ([] : List Submission), s.user = u
      simp
    · intro u ust h
      exact Option.noConfusion h
  | append_singleton ss sub ih =>
    obtain ⟨ihnd, ihpres, ihchar⟩ := ih
    have hstats : (foldState c (ss ++ [sub])).stats =
        setk (foldState c ss).stats sub.user
          (updatedUserStat c ((getv (foldState c ss).stats sub.user).getD {}) sub) := by
      unfold foldState
      rw [List.foldl_append]
      rfl
    have hprev4 :
        ((((getv (foldState c ss).stats sub.user).getD {}).problems.map Prod.fst).Nodup) ∧
        (∀ p, getv ((getv (foldState c ss).stats sub.user).getD {}).problems p =
          if grpl ss sub.user p = [] then none
          else some (pfold c (grpl ss sub.user p))) ∧
        ((getv (foldState c ss).stats sub.user).getD {}).score =
          ((((getv (foldState c ss).stats sub.user).getD {}).problems.map
            (scoreContrib c)).sum) ∧
        ((getv (foldState c ss).stats sub.user).getD {}).lastCATime =
          ((((getv (foldState c ss).stats sub.user).getD {}).problems.map
            timeContrib).foldl max 0) := by
      cases hu : getv (foldState c ss).stats sub.user with
      | some u0 =>
        simpa [hu] using ihchar sub.user u0 hu
      | none =>
        have habs : ∀ s ∈ ss, s.user ≠ sub.user := by
          intro s hs he
          have hsome : (getv (foldState c ss).stats sub.user).isSome = true :=
            (ihpres sub.user).2 ⟨s, hs, he⟩
          rw [hu] at hsome
          exact Bool.noConfusion hsome
        refine ⟨by simp [hu], ?_, by simp [hu], by simp [hu]⟩
        intro p
        rw [grpl_empty_of_absent ss sub.user p habs, if_pos rfl]
        rfl
    obtain ⟨p1, p2, p3, p4⟩ := hprev4
    have hupd := updatedUserStat_char c ss sub _ p1 p2 p3 p4
    refine ⟨?_, ?_, ?_⟩
    · rw [hstats]
      exact setk_keys_nodup _ _ _ ihnd
    · intro u
      by_cases hu : u = sub.user
      · subst hu
        rw [hstats, getv_setk_self]
        constructor
        · intro _
          exact ⟨sub, List.mem_append.2 (Or.inr (List.mem_singleton.2 rfl)), rfl⟩
        · intro _
          rfl
      · rw [hstats, getv_setk_ne _ _ _ _ hu, ihpres u]
        constructor
        · rintro ⟨s, hs, he⟩
          exact ⟨s, List.mem_append.2 (Or.inl hs), he⟩
        · rintro ⟨s, hs, he⟩
          rcases List.mem_append.1 hs with hs' | hs'
          · exact ⟨s, hs', he⟩
          · obtain rfl := List.mem_singleton.1 hs'
            exact absurd he.symm hu
    · intro u ust h
      by_cases hu : u = sub.user
      · subst hu
        rw [hstats, getv_setk_self] at h
        obtain rfl := Option.some.inj h
        exact hupd
      · rw [hstats, getv_setk_ne _ _ _ _ hu] at h
        obtain ⟨q1, q2, q3, q4⟩ := ihchar u ust h
        refine ⟨q1, ?_, q3, q4⟩
        intro p
        rw [grpl_append_miss ss sub u p (fun hc => hu hc.1.symm)]
        exact q2 p

/-! ### Spec-side quantities for the penalty and score claims -/

/-- The (user, problem) group of the sorted window-filtered stream. -/
def grpOf (c : Contest) (subs : List Submission) (u p : String) : List Submission :=
  grpl (sortedDuringContest c subs) u p

/-- The distinct problem ids the user submitted to within the window. -/
def userPids (c : Contest) (subs : List Submission) (u : String) : List String :=
  (((sortedDuringContest c subs).filter (fun s => decide (s.user = u))).map
    (fun s => s.problemId)).dedup

/-- The problems the user solved: those with an accepted in-window
submission. -/
def solvedOf (c : Contest) (subs : List Submission) (u : String) : List String :=
  (userPids c subs u).filter
    (fun p => (grpOf c subs u p).any (fun s => decide (s.result = "CA")))

/-- The offset (seconds since contest start) of the user's first accepted
submission on a problem. -/
def firstCAOffset (c : Contest) (subs : List Submission) (u p : String) : Option ℚ :=
  ((grpOf c subs u p).find? (fun s => s.result = "CA")).map (timeSinceStart c)

/-- The largest first-acceptance offset among solved problems, clamped
below at 0 — the fold of `Math.max` starting from 0 (`part_000:1141,
1162-1165`). -/
def maxAcceptedOffset (c : Contest) (subs : List Submission) (u : String) : ℚ :=
  ((solvedOf c subs u).map (fun p => (firstCAOffset c subs u p).getD 0)).foldl max 0

/-- The largest first-acceptance offset among solved problems as the claim
states it: a plain maximum over the solved problems, 0 only when none is
solved (no clamping). -/
def origMaxAcceptedOffset (c : Contest) (subs : List Submission) (u : String) : ℚ :=
  match (solvedOf c subs u).map (fun p => (firstCAOffset c subs u p).getD 0) with
  | [] => 0
  | q :: qs => qs.foldl max q

/-- The number of wrong submissions strictly before the first accepted one
on a problem. -/
def wrongBeforeAccept (c : Contest) (subs : List Submission) (u p : String) : Nat :=
  ((grpOf c subs u p).takeWhile (fun s => s.result ≠ "CA")).countP
    (fun s => s.result = "WA")

/-- The total of wrong-before-accept counts over solved problems. -/
def totalWrongBeforeAccept (c : Contest) (subs : List Submission) (u : String) : Nat :=
  ((solvedOf c subs u).map (wrongBeforeAccept c subs u)).sum

/-! ### Generic list helpers for the claim derivations -/

lemma foldl_max_perm {l₁ l₂ : List ℚ} (h : l₁.Perm l₂) :
    ∀ a : ℚ, l₁.foldl max a = l₂.foldl max a := by
  induction h with
  | nil => intro a; rfl
  | cons x h ih =>
    intro a
    rw [List.foldl_cons, List.foldl_cons, ih]
  | swap x y l =>
    intro a
    rw [List.foldl_cons, List.foldl_cons, List.foldl_cons, List.foldl_cons,
      sup_right_comm]
  | trans h₁ h₂ ih₁ ih₂ =>
    intro a
    rw [ih₁, ih₂]

/-- Entries contributing 0 can be dropped from a max fold with a
nonnegative accumulator. -/
lemma foldl_max_filter (f : String × ProbStat → ℚ)
    (hz : ∀ pr, pr.2.status ≠ "CA" → f pr = 0) :
    ∀ (l : List (String × ProbStat)) (a : ℚ), 0 ≤ a →
      (l.map f).foldl max a =
        ((l.filter (fun pr => pr.2.status = "CA")).map f).foldl max a := by
  intro l
  induction l with
  | nil => intro a _; rfl
  | cons pr t ih =>
    intro a ha
    by_cases hca : pr.2.status = "CA"
    · rw [List.map_cons, List.foldl_cons,
        List.filter_cons_of_pos (by simp [hca]), List.map_cons, List.foldl_cons]
      exact ih (max a (f pr)) (le_trans ha (le_max_left a (f pr)))
    · rw [List.map_cons, List.foldl_cons,
        List.filter_cons_of_neg (by simp [hca]), hz pr hca, max_eq_left ha]
      exact ih a ha

/-- Entries contributing 0 can be dropped from a sum. -/
lemma sum_map_filter (f : String × ProbStat → Nat)
    (hz : ∀ pr, pr.2.status ≠ "CA" → f pr = 0) :
    ∀ l : List (String × ProbStat),
      (l.map f).sum = ((l.filter (fun pr => pr.2.status = "CA")).map f).sum := by
  intro l
  induction l with
  | nil => rfl
  | cons pr t ih =>
    by_cases hca : pr.2.status = "CA"
    · rw [List.map_cons, List.sum_cons,
        List.filter_cons_of_pos (by simp [hca]), List.map_cons, List.sum_cons, ih]
    · rw [List.map_cons, List.sum_cons,
        List.filter_cons_of_neg (by simp [hca]), hz pr hca, ih]
      omega

/-- The rankings component of the route output. -/
lemma rankings_of_fold (c : Contest) (subs : List Submission) :
    (contestRanking c subs).rankings =
      (rankingsOf (rankingFold c subs)).mergeSort rankLE := rfl

/-- The FA component of the route output. -/
lemma firstFA_of_fold (c : Contest) (subs : List Submission) :
    (contestRanking c subs).firstFA = (rankingFold c subs).firstFA := rfl

/-- `rankingFold` is the generic fold over the sorted filtered stream. -/
lemma rankingFold_eq_foldState (c : Contest) (subs : List Submission) :
    rankingFold c subs = foldState c (sortedDuringContest c subs) := rfl

/-- The rankings row of a one-user state. -/
lemma rankingsOf_stats_single (u : String) (ust : UserStat)
    (fa : List (String × FARecord)) :
    rankingsOf (RState.mk [(u, ust)] fa) =
      [⟨u, ust.score, ust.lastCATime + (totalWABeforeCA ust : ℚ) * 300,
        ust.problems, totalWABeforeCA ust⟩] := rfl

/-! ### C8: window exclusion -/

/-- C8: appending submissions dated after `endTime` never changes the
ranking output, and any two ledgers agreeing on their in-window
submissions produce the same output — the route reads the ledger only
through the `date ≤ endTime` filter (`part_000:1095-1097`). -/
theorem window_exclusion (c : Contest) (l₁ l₂ extra : List Submission)
    (hextra : ∀ s ∈ extra, c.endMs < s.date)
    (heq : submissionsDuringContest c l₁ = submissionsDuringContest c l₂) :
    contestRanking c (l₁ ++ extra) = contestRanking c l₁ ∧
    contestRanking c l₁ = contestRanking c l₂ := by
  have hpipe : ∀ l₃ l₄ : List Submission,
      submissionsDuringContest c l₃ = submissionsDuringContest c l₄ →
      contestRanking c l₃ = contestRanking c l₄ := by
    intro l₃ l₄ h
    unfold contestRanking rankingFold sortedDuringContest
    rw [h]
  constructor
  · refine hpipe _ _ ?_
    unfold submissionsDuringContest
    rw [List.filter_append]
    have hnil : extra.filter (fun s => decide (s.date ≤ c.endMs)) = [] := by
      rw [List.filter_eq_nil_iff]
      intro s hs
      simp [not_le.2 (hextra s hs)]
    rw [hnil, List.append_nil]
  · exact hpipe _ _ heq

/-- A submission after the contest end. -/
def lateWA : Submission := ⟨"A", "alice", "WA", "3", 5000000⟩

/-- C8 witness: appending a post-end submission to a one-element ledger
changes nothing. -/
theorem window_exclusion_witness :
    contestRanking demoContest ([demoWA1] ++ [lateWA]) =
      contestRanking demoContest [demoWA1] ∧
    contestRanking demoContest [demoWA1] = contestRanking demoContest [demoWA1] :=
  window_exclusion demoContest [demoWA1] [demoWA1] [lateWA]
    (by intro s hs; obtain rfl := List.mem_singleton.1 hs; decide) rfl

lemma foldl_max_zeros (l : List ℚ) (h : ∀ x ∈ l, x = 0) : l.foldl max 0 = 0 := by
  induction l with
  | nil => rfl
  | cons x t ih =>
    rw [List.foldl_cons, h x (List.mem_cons_self x t), max_self]
    exact ih (fun y hy => h y (List.mem_cons_of_mem x hy))

/-- Membership in the route's rankings is membership in the unsorted
rankings array. -/
lemma mem_rankings_iff (c : Contest) (subs : List Submission) (e : RankEntry) :
    e ∈ (contestRanking c subs).rankings ↔
      e ∈ rankingsOf (rankingFold c subs) := by
  rw [rankings_of_fold]
  exact (List.mergeSort_perm _ _).mem_iff

/-- Membership in the sorted window-filtered stream. -/
lemma mem_sorted_iff (c : Contest) (subs : List Submission) (s : Submission) :
    s ∈ sortedDuringContest c subs ↔ s ∈ subs ∧ s.date ≤ c.endMs := by
  unfold sortedDuringContest
  rw [(List.mergeSort_perm _ _).mem_iff]
  unfold submissionsDuringContest
  simp [List.mem_filter]

/-! ### C10: who appears in the ranking -/

/-- C10: the users of the ranking output are exactly the users with at
least one submission dated `≤ endTime`, whatever its result; an entry of a
user with no accepted in-window submission has score 0 and
penalty-adjusted time 0. -/
theorem ranking_users (c : Contest) (subs : List Submission) :
    (∀ u, (∃ e ∈ (contestRanking c subs).rankings, e.username = u) ↔
      ∃ s ∈ subs, s.date ≤ c.endMs ∧ s.user = u) ∧
    (∀ e ∈ (contestRanking c subs).rankings,
      (∀ s ∈ subs, s.date ≤ c.endMs → s.user = e.username → s.result ≠ "CA") →
      e.score = 0 ∧ e.lastCATime = 0) := by
  obtain ⟨hnd, hpres, hchar⟩ := foldState_char c (sortedDuringContest c subs)
  constructor
  · intro u
    constructor
    · rintro ⟨e, he, heu⟩
      rw [mem_rankings_iff, rankingFold_eq_foldState] at he
      obtain ⟨pr, hpr, hpe⟩ := List.mem_map.1 he
      have hu : pr.1 ∈ (foldState c (sortedDuringContest c subs)).stats.map Prod.fst :=
        List.mem_map.2 ⟨pr, hpr, rfl⟩
      obtain ⟨s, hs, hsu⟩ := (hpres pr.1).1 ((getv_isSome_iff_mem _ _).2 hu)
      rw [mem_sorted_iff] at hs
      refine ⟨s, hs.1, hs.2, ?_⟩
      rw [hsu, ← heu, ← hpe]
    · rintro ⟨s, hs, hdate, hsu⟩
      have hsome : (getv (foldState c (sortedDuringContest c subs)).stats u).isSome
          = true :=
        (hpres u).2 ⟨s, (mem_sorted_iff c subs s).2 ⟨hs, hdate⟩, hsu⟩
      obtain ⟨ust, hust⟩ := Option.isSome_iff_exists.1 hsome
      have hpr : (u, ust) ∈ (foldState c (sortedDuringContest c subs)).stats :=
        mem_of_getv_eq_some _ _ _ hust
      refine ⟨⟨u, ust.score, ust.lastCATime + (totalWABeforeCA ust : ℚ) * 300,
        ust.problems, totalWABeforeCA ust⟩, ?_, rfl⟩
      rw [mem_rankings_iff, rankingFold_eq_foldState]
      exact List.mem_map.2 ⟨(u, ust), hpr, rfl⟩
  · intro e he hno
    rw [mem_rankings_iff, rankingFold_eq_foldState] at he
    obtain ⟨pr, hpr, hpe⟩ := List.mem_map.1 he
    obtain ⟨u, ust⟩ := pr
    obtain rfl := hpe
    have hget : getv (foldState c (sortedDuringContest c subs)).stats u = some ust :=
      getv_of_mem_of_nodup _ _ _ hpr hnd
    obtain ⟨k1, k2, k3, k4⟩ := hchar u ust hget
    have hnoCA : ∀ p ps, getv ust.problems p = some ps → ps.status ≠ "CA" := by
      intro p ps hps hca
      rw [k2 p] at hps
      by_cases hg : grpl (sortedDuringContest c subs) u p = []
      · rw [if_pos hg] at hps
        exact Option.noConfusion hps
      · rw [if_neg hg] at hps
        obtain rfl := Option.some.inj hps
        obtain ⟨x, hx, hxca⟩ :=
          (foldl_probStep_char c (grpl (sortedDuringContest c subs) u p) {}
            (by decide) rfl).1.1 hca
        -- a member of the group is an in-window submission by this user
        have hx2 := List.mem_filter.1 hx
        have hx3 := of_decide_eq_true hx2.2
        have hms := (mem_sorted_iff c subs x).1 hx2.1
        exact hno x hms.1 hms.2 hx3.1 hxca
    have hz : ∀ pr2 ∈ ust.problems, scoreContrib c pr2 = 0 := by
      intro pr2 hpr2
      unfold scoreContrib
      rw [if_neg (hnoCA pr2.1 pr2.2 (getv_of_mem_of_nodup _ _ _ hpr2 k1))]
    have hzt : ∀ pr2 ∈ ust.problems, timeContrib pr2 = 0 := by
      intro pr2 hpr2
      unfold timeContrib
      rw [if_neg (hnoCA pr2.1 pr2.2 (getv_of_mem_of_nodup _ _ _ hpr2 k1))]
    have hsc : ust.score = 0 := by
      rw [k3]
      apply List.sum_eq_zero
      intro x hx
      obtain ⟨pr2, hpr2, rfl⟩ := List.mem_map.1 hx
      exact hz pr2 hpr2
    have hwa : totalWABeforeCA ust = 0 := by
      unfold totalWABeforeCA
      apply List.sum_eq_zero
      intro x hx
      obtain ⟨pr2, hpr2, rfl⟩ := List.mem_map.1 hx
      rw [if_neg (hnoCA pr2.1 pr2.2 (getv_of_mem_of_nodup _ _ _ hpr2 k1))]
    have hlt : ust.lastCATime = 0 := by
      rw [k4]
      apply foldl_max_zeros
      intro x hx
      obtain ⟨pr2, hpr2, rfl⟩ := List.mem_map.1 hx
      exact hzt pr2 hpr2
    constructor
    · exact hsc
    · show ust.lastCATime + (totalWABeforeCA ust : ℚ) * 300 = 0
      rw [hlt, hwa]
      norm_num

/-- An in-window unjudged submission by `dave`. -/
def daveUnjudged : Submission := ⟨"A", "dave", "未判定", "5", 100000⟩

/-- C10 witness: a user whose only in-window submission is unjudged still
appears in the ranking, with score 0 and penalty-adjusted time 0. -/
theorem ranking_users_witness :
    (∃ e ∈ (contestRanking demoContest [daveUnjudged]).rankings,
      e.username = "dave") ∧
    ∀ e ∈ (contestRanking demoContest [daveUnjudged]).rankings,
      e.score = 0 ∧ e.lastCATime = 0 := by
  have h := ranking_users demoContest [daveUnjudged]
  constructor
  · exact (h.1 "dave").2 ⟨daveUnjudged, List.mem_singleton.2 rfl, by decide, rfl⟩
  · intro e he
    refine h.2 e he ?_
    intro s hs _ _
    obtain rfl := List.mem_singleton.1 hs
    decide

/-! ### C1: submissions before the start time -/

/-- The ranking row produced by a one-submission ledger. -/
def singleEntry (c : Contest) (s : Submission) : RankEntry :=
  ⟨s.user, (updatedUserStat c {} s).score,
    (updatedUserStat c {} s).lastCATime +
      (totalWABeforeCA (updatedUserStat c {} s) : ℚ) * 300,
    (updatedUserStat c {} s).problems,
    totalWABeforeCA (updatedUserStat c {} s)⟩

/-- The route output on a one-submission in-window ledger, in closed
form. -/
lemma contestRanking_single (c : Contest) (s : Submission)
    (hwin : s.date ≤ c.endMs) :
    contestRanking c [s] =
      ⟨[singleEntry c s], updatedFA [] s (isNewCA {} s)⟩ := by
  have hfilter : submissionsDuringContest c [s] = [s] := by
    unfold submissionsDuringContest
    rw [List.filter_cons_of_pos (by simp [hwin]), List.filter_nil]
  have hsort : sortedDuringContest c [s] = [s] := by
    unfold sortedDuringContest
    rw [hfilter]
    exact List.mergeSort_singleton s
  have hfold : rankingFold c [s] = rankStep c {} s := by
    unfold rankingFold
    rw [hsort]
    rfl
  have hstep : rankStep c {} s =
      RState.mk [(s.user, updatedUserStat c {} s)] (updatedFA [] s (isNewCA {} s)) :=
    rfl
  show RankingOutput.mk ((rankingsOf (rankingFold c [s])).mergeSort rankLE)
      (rankingFold c [s]).firstFA = _
  rw [hfold, hstep, rankingsOf_stats_single, List.mergeSort_singleton]
  rfl

/-- An accepted submission made 10 seconds before the contest starts. -/
def preStartCA : Submission := ⟨"A", "alice", "CA", "7", -10000⟩

/-- C1 counterexample: a ledger whose only submission is an accepted one
dated before `startTime`.  The ranking includes `alice` with the problem's
100 points and records her as first acceptor, so removing the pre-start
submission changes both the ranking and the FA record — the route's filter
at `part_000:1095-1097` bounds only by `endTime`. -/
theorem preStart_exclusion_cex :
    preStartCA.date < demoContest.startMs ∧
    preStartCA.date ≤ demoContest.endMs ∧
    (contestRanking demoContest [preStartCA]).rankings.map
      (fun e => (e.username, e.score)) = [("alice", 100)] ∧
    (contestRanking demoContest []).rankings = [] ∧
    (contestRanking demoContest [preStartCA]).firstFA =
      [("A", ⟨"alice", -10000⟩)] ∧
    contestRanking demoContest [preStartCA] ≠ contestRanking demoContest [] := by
  have hsingle := contestRanking_single demoContest preStartCA (by decide)
  have hempty : contestRanking demoContest [] = ⟨[], []⟩ := by
    show RankingOutput.mk ((rankingsOf (rankingFold demoContest [])).mergeSort rankLE)
        (rankingFold demoContest []).firstFA = _
    have h0 : rankingFold demoContest [] = ({} : RState) := by
      unfold rankingFold sortedDuringContest submissionsDuringContest
      rw [List.filter_nil, List.mergeSort_nil]
      rfl
    rw [h0]
    show RankingOutput.mk (([] : List RankEntry).mergeSort rankLE) [] = _
    rw [List.mergeSort_nil]
  have hmap : (contestRanking demoContest [preStartCA]).rankings.map
      (fun e => (e.username, e.score)) = [("alice", 100)] := by
    rw [hsingle]
    show [("alice", (updatedUserStat demoContest {} preStartCA).score)] = _
    have : (updatedUserStat demoContest {} preStartCA).score = 100 := by decide
    rw [this]
  have hfa : (contestRanking demoContest [preStartCA]).firstFA =
      [("A", ⟨"alice", -10000⟩)] := by
    rw [hsingle]
    show updatedFA [] preStartCA (isNewCA {} preStartCA) = _
    decide
  refine ⟨by decide, by decide, hmap, by rw [hempty], hfa, ?_⟩
  intro hcontra
  have h2 := congrArg (fun o : RankingOutput =>
    o.rankings.map (fun e => (e.username, e.score))) hcontra
  rw [hempty] at h2
  simp only [hmap] at h2
  exact List.noConfusion h2

/-- C1 amended: only the `endTime` bound filters the ranking input — every
submission dated `≤ endTime` influences the output even when dated before
`startTime`: by itself it already produces a ranking entry for its user,
and an FA record when accepted. -/
theorem preStart_submissions_included (c : Contest) (s : Submission)
    (hwin : s.date ≤ c.endMs) (hpre : s.date < c.startMs) :
    (contestRanking c [s]).rankings.map (fun e => e.username) = [s.user] ∧
    (s.result = "CA" →
      (contestRanking c [s]).firstFA = [(s.problemId, ⟨s.user, s.date⟩)]) := by
  rw [contestRanking_single c s hwin]
  constructor
  · rfl
  · intro hca
    show updatedFA [] s (isNewCA {} s) = _
    have hb : isNewCA ({} : UserStat) s = true := by
      unfold isNewCA
      simp only [decide_eq_true_eq]
      refine ⟨hca, ?_⟩
      show ("none" : String) ≠ "CA"
      decide
    rw [hb]
    rfl

/-- C1 witness: the amended statement applied to the concrete pre-start
accepted submission. -/
theorem preStart_submissions_included_witness :
    (contestRanking demoContest [preStartCA]).rankings.map
      (fun e => e.username) = ["alice"] ∧
    (contestRanking demoContest [preStartCA]).firstFA =
      [("A", ⟨"alice", -10000⟩)] := by
  have h := preStart_submissions_included demoContest preStartCA
    (by decide) (by decide)
  exact ⟨h.1, h.2 rfl⟩

/-! ### C3: score additivity -/

/-- The window-filtered representative is accepted iff the user has an
accepted in-window submission on the problem (order of the group is
irrelevant). -/
lemma windowRepIsCA_iff (c : Contest) (subs : List Submission) (u p : String) :
    windowRepIsCA c subs u p = true ↔
      ∃ x ∈ grpl (sortedDuringContest c subs) u p, x.result = "CA" := by
  have hperm : ((submissionsDuringContest c subs).filter
      (fun s => decide (s.user = u ∧ s.problemId = p))).Perm
      (grpl (sortedDuringContest c subs) u p) := by
    unfold grpl sortedDuringContest
    exact ((List.mergeSort_perm _ _).filter _).symm
  unfold windowRepIsCA windowRepresentative
  constructor
  · intro h
    cases hrep : groupRepresentative ((submissionsDuringContest c subs).filter
        (fun s => decide (s.user = u ∧ s.problemId = p))) with
    | none =>
      rw [hrep] at h
      exact Bool.noConfusion h
    | some m =>
      rw [hrep] at h
      obtain ⟨x, hx, hxca⟩ := (groupRepresentative_ca_iff _).1
        ⟨m, hrep, of_decide_eq_true h⟩
      exact ⟨x, hperm.mem_iff.1 hx, hxca⟩
  · rintro ⟨x, hx, hxca⟩
    obtain ⟨m, hm, hmca⟩ := (groupRepresentative_ca_iff _).2
      ⟨x, hperm.mem_iff.2 hx, hxca⟩
    rw [hm]
    simp [hmca]

/-- With distinct problem ids, the `problemScores` object maps each
problem's id to its (defaulted) score. -/
lemma getv_problemScores (problems : List Problem)
    (hnd : (problems.map Problem.id).Nodup) :
    ∀ p ∈ problems, getv (problemScores problems) p.id =
      some (if p.score = 0 then 100 else p.score) := by
  induction problems using List.reverseRecOn with
  | nil => intro p hp; exact absurd hp (List.not_mem_nil p)
  | append_singleton ps q ih =>
    intro p hp
    rw [List.map_append] at hnd
    have hsc : problemScores (ps ++ [q]) =
        setk (problemScores ps) q.id (if q.score = 0 then 100 else q.score) := by
      unfold problemScores
      rw [List.foldl_append]
      rfl
    rw [hsc]
    rcases List.mem_append.1 hp with hp' | hp'
    · have hne : p.id ≠ q.id := by
        intro he
        have h1 : p.id ∈ ps.map Problem.id := List.mem_map.2 ⟨p, hp', rfl⟩
        exact (List.nodup_append.1 hnd).2.2 h1 (by simp [he])
      rw [getv_setk_ne _ _ _ _ hne]
      exact ih (List.nodup_append.1 hnd).1 p hp'
    · obtain rfl := List.mem_singleton.1 hp'
      rw [getv_setk_self]

/-- With distinct ids and positive scores, `problemScores[p.id] || 0`
recovers `p.score`. -/
lemma scoreFor_eq (c : Contest) (hnd : (c.problems.map Problem.id).Nodup)
    (p : Problem) (hp : p ∈ c.problems) (hpos : p.score ≠ 0) :
    scoreFor c p.id = p.score := by
  unfold scoreFor
  rw [getv_problemScores c.problems hnd p hp]
  simp [hpos]

/-- Every ranking entry is the row of its user's final fold stat. -/
lemma entry_stat (c : Contest) (subs : List Submission) (e : RankEntry)
    (he : e ∈ (contestRanking c subs).rankings) :
    ∃ ust, getv (foldState c (sortedDuringContest c subs)).stats e.username =
        some ust ∧
      e.score = ust.score ∧
      e.lastCATime = ust.lastCATime + (totalWABeforeCA ust : ℚ) * 300 := by
  rw [mem_rankings_iff, rankingFold_eq_foldState] at he
  obtain ⟨⟨u, ust⟩, hpr, hpe⟩ := List.mem_map.1 he
  obtain rfl := hpe
  exact ⟨ust, getv_of_mem_of_nodup _ _ _ hpr
    (foldState_char c (sortedDuringContest c subs)).1, rfl, rfl⟩

/-- The accepted problem keys of a final user stat: they are exactly the
problems with an accepted in-window submission, and on them the stat
records the first-acceptance offset and the wrong-before-accept count. -/
lemma ca_keys_char (c : Contest) (subs : List Submission) (u : String)
    (ust : UserStat)
    (hget : getv (foldState c (sortedDuringContest c subs)).stats u = some ust) :
    (((ust.problems.filter (fun pr => pr.2.status = "CA")).map Prod.fst).Nodup) ∧
    (∀ p, p ∈ (ust.problems.filter (fun pr => pr.2.status = "CA")).map Prod.fst ↔
      ∃ x ∈ grpl (sortedDuringContest c subs) u p, x.result = "CA") ∧
    (∀ pr ∈ ust.problems.filter (fun pr => pr.2.status = "CA"),
      pr.2.time = firstCAOffset c subs u pr.1 ∧
      pr.2.waCountBeforeCA = wrongBeforeAccept c subs u pr.1) := by
  obtain ⟨k1, k2, -, -⟩ :=
    (foldState_char c (sortedDuringContest c subs)).2.2 u ust hget
  have hval : ∀ pr ∈ ust.problems,
      pr.2 = pfold c (grpl (sortedDuringContest c subs) u pr.1) := by
    intro pr hpr
    have hg := getv_of_mem_of_nodup _ _ _ hpr k1
    rw [k2 pr.1] at hg
    by_cases hnil : grpl (sortedDuringContest c subs) u pr.1 = []
    · rw [if_pos hnil] at hg
      exact Option.noConfusion hg
    · rw [if_neg hnil] at hg
      exact (Option.some.inj hg).symm
  refine ⟨?_, ?_, ?_⟩
  · exact (List.Sublist.map Prod.fst (List.filter_sublist _)).nodup k1
  · intro p
    constructor
    · intro hp
      obtain ⟨pr, hprf, rfl⟩ := List.mem_map.1 hp
      have hfm := List.mem_filter.1 hprf
      have hst : pr.2.status = "CA" := of_decide_eq_true hfm.2
      rw [hval pr hfm.1] at hst
      exact (foldl_probStep_char c _ {} (by decide) rfl).1.1 hst
    · rintro ⟨x, hx, hxca⟩
      have hnil : grpl (sortedDuringContest c subs) u p ≠ [] := by
        intro h0
        rw [h0] at hx
        exact List.not_mem_nil x hx
      have hgp : getv ust.problems p =
          some (pfold c (grpl (sortedDuringContest c subs) u p)) := by
        rw [k2 p, if_neg hnil]
      have hst : (pfold c (grpl (sortedDuringContest c subs) u p)).status = "CA" :=
        (foldl_probStep_char c _ {} (by decide) rfl).1.2 ⟨x, hx, hxca⟩
      exact List.mem_map.2 ⟨(p, pfold c (grpl (sortedDuringContest c subs) u p)),
        List.mem_filter.2 ⟨mem_of_getv_eq_some _ _ _ hgp, by simp [hst]⟩, rfl⟩
  · intro pr hprf
    have hfm := List.mem_filter.1 hprf
    have hv := hval pr hfm.1
    have hchar2 := foldl_probStep_char c
      (grpl (sortedDuringContest c subs) u pr.1) {} (by decide) rfl
    constructor
    · rw [hv]
      exact hchar2.2.1
    · rw [hv]
      rw [show (pfold c (grpl (sortedDuringContest c subs) u pr.1)).waCountBeforeCA =
        0 + ((grpl (sortedDuringContest c subs) u pr.1).takeWhile
          (fun s => s.result ≠ "CA")).countP (fun s => s.result = "WA")
        from hchar2.2.2]
      rw [Nat.zero_add]
      rfl

/-- C3: a user's score is the sum of `problem.score` over exactly the
problems whose window-filtered representative attempt is accepted, each
counted once — under the data-model invariants that problem ids are
distinct, scores are positive, and ledger submissions reference existing
problems. -/
theorem score_additivity (c : Contest) (subs : List Submission) (e : RankEntry)
    (hnd : (c.problems.map Problem.id).Nodup)
    (hpos : ∀ p ∈ c.problems, p.score ≠ 0)
    (hpid : ∀ s ∈ subs, s.problemId ∈ c.problems.map Problem.id)
    (he : e ∈ (contestRanking c subs).rankings) :
    e.score = ((c.problems.filter
      (fun p => windowRepIsCA c subs e.username p.id)).map Problem.score).sum := by
  obtain ⟨ust, hget, hesc, -⟩ := entry_stat c subs e he
  obtain ⟨-, -, k3, -⟩ :=
    (foldState_char c (sortedDuringContest c subs)).2.2 e.username ust hget
  obtain ⟨c1, c2, -⟩ := ca_keys_char c subs e.username ust hget
  rw [hesc, k3, sum_map_filter (scoreContrib c)
    (fun pr h => by unfold scoreContrib; rw [if_neg h])]
  have h1 : ((ust.problems.filter (fun pr => pr.2.status = "CA")).map
      (scoreContrib c)) =
      ((ust.problems.filter (fun pr => pr.2.status = "CA")).map Prod.fst).map
        (fun p => scoreFor c p) := by
    rw [List.map_map]
    apply List.map_congr_left
    intro pr hpr
    have hca : pr.2.status = "CA" := of_decide_eq_true (List.mem_filter.1 hpr).2
    unfold scoreContrib
    simp [hca]
  rw [h1]
  have hMnd : ((c.problems.filter
      (fun p => windowRepIsCA c subs e.username p.id)).map Problem.id).Nodup :=
    (List.Sublist.map Problem.id (List.filter_sublist _)).nodup hnd
  have hiff : ∀ q, q ∈ (ust.problems.filter
      (fun pr => pr.2.status = "CA")).map Prod.fst ↔
      q ∈ (c.problems.filter
        (fun p => windowRepIsCA c subs e.username p.id)).map Problem.id := by
    intro q
    rw [c2 q]
    constructor
    · rintro ⟨x, hx, hxca⟩
      have hx2 := List.mem_filter.1 hx
      have hx3 := of_decide_eq_true hx2.2
      have hxsub := (mem_sorted_iff c subs x).1 hx2.1
      have hqin : q ∈ c.problems.map Problem.id := by
        rw [← hx3.2]
        exact hpid x hxsub.1
      obtain ⟨pb, hpb, hpbid⟩ := List.mem_map.1 hqin
      refine List.mem_map.2 ⟨pb, List.mem_filter.2 ⟨hpb, ?_⟩, hpbid⟩
      rw [hpbid]
      exact (windowRepIsCA_iff c subs e.username q).2 ⟨x, hx, hxca⟩
    · intro hq
      obtain ⟨pb, hpb, hpbid⟩ := List.mem_map.1 hq
      have hrep : windowRepIsCA c subs e.username pb.id = true :=
        (List.mem_filter.1 hpb).2
      obtain ⟨x, hx, hxca⟩ :=
        (windowRepIsCA_iff c subs e.username pb.id).1 hrep
      rw [← hpbid]
      exact ⟨x, hx, hxca⟩
  have hperm := (List.perm_ext_iff_of_nodup c1 hMnd).2 hiff
  rw [(hperm.map (fun p => scoreFor c p)).sum_eq, List.map_map]
  exact congrArg List.sum (List.map_congr_left (fun pb hpb =>
    scoreFor_eq c hnd pb (List.mem_of_mem_filter hpb)
      (hpos pb (List.mem_of_mem_filter hpb))))

/-- C3 witness: `alice` accepted on problem `A` (100 points) and the sum
over representative-accepted problems agree, both being 100. -/
theorem score_additivity_witness :
    ∃ e ∈ (contestRanking demoContest [demoCA]).rankings,
      e.score = ((demoContest.problems.filter
        (fun p => windowRepIsCA demoContest [demoCA] e.username p.id)).map
          Problem.score).sum ∧ e.score = 100 := by
  have hsingle := contestRanking_single demoContest demoCA (by decide)
  have hmem : singleEntry demoContest demoCA ∈
      (contestRanking demoContest [demoCA]).rankings := by
    rw [hsingle]
    exact List.mem_singleton.2 rfl
  refine ⟨singleEntry demoContest demoCA, hmem, ?_, by decide⟩
  exact score_additivity demoContest [demoCA] (singleEntry demoContest demoCA)
    (by decide) (by decide) (by decide) hmem

/-! ### C2: the penalty-adjusted time -/

/-- C2 amended: every ranking entry's penalty-adjusted time is the largest
first-acceptance offset among the user's solved problems — clamped below
at 0, since the fold of `Math.max` starts from 0 (`part_000:1141`) — plus
300 seconds per wrong submission before acceptance, summed over solved
problems. -/
theorem penalty_formula (c : Contest) (subs : List Submission) (e : RankEntry)
    (he : e ∈ (contestRanking c subs).rankings) :
    e.lastCATime = maxAcceptedOffset c subs e.username +
      300 * (totalWrongBeforeAccept c subs e.username : ℚ) := by
  obtain ⟨ust, hget, -, helt⟩ := entry_stat c subs e he
  obtain ⟨-, -, -, k4⟩ :=
    (foldState_char c (sortedDuringContest c subs)).2.2 e.username ust hget
  obtain ⟨c1, c2, c3⟩ := ca_keys_char c subs e.username ust hget
  have hA : ust.lastCATime =
      ((ust.problems.filter (fun pr => pr.2.status = "CA")).map timeContrib).foldl
        max 0 := by
    rw [k4]
    exact foldl_max_filter timeContrib
      (fun pr h => by unfold timeContrib; rw [if_neg h]) ust.problems 0 le_rfl
  have hB : ((ust.problems.filter (fun pr => pr.2.status = "CA")).map timeContrib) =
      ((ust.problems.filter (fun pr => pr.2.status = "CA")).map Prod.fst).map
        (fun p => (firstCAOffset c subs e.username p).getD 0) := by
    rw [List.map_map]
    apply List.map_congr_left
    intro pr hpr
    have hca : pr.2.status = "CA" := of_decide_eq_true (List.mem_filter.1 hpr).2
    have ht := (c3 pr hpr).1
    unfold timeContrib
    rw [if_pos hca, ht]
    rfl
  have hsolvnd : (solvedOf c subs e.username).Nodup :=
    (List.nodup_dedup _).filter _
  have hiff : ∀ p, p ∈ (ust.problems.filter
      (fun pr => pr.2.status = "CA")).map Prod.fst ↔
      p ∈ solvedOf c subs e.username := by
    intro p
    rw [c2 p]
    unfold solvedOf
    rw [List.mem_filter]
    constructor
    · rintro ⟨x, hx, hxca⟩
      have hx2 := List.mem_filter.1 hx
      have hx3 := of_decide_eq_true hx2.2
      refine ⟨?_, ?_⟩
      · unfold userPids
        rw [List.mem_dedup]
        refine List.mem_map.2 ⟨x, List.mem_filter.2 ⟨hx2.1, by simp [hx3.1]⟩, hx3.2⟩
      · rw [List.any_eq_true]
        exact ⟨x, hx, by simp [hxca]⟩
    · rintro ⟨-, hany⟩
      rw [List.any_eq_true] at hany
      obtain ⟨x, hx, hxca⟩ := hany
      exact ⟨x, hx, of_decide_eq_true hxca⟩
  have hperm := (List.perm_ext_iff_of_nodup c1 hsolvnd).2 hiff
  have hwa : totalWABeforeCA ust = totalWrongBeforeAccept c subs e.username := by
    unfold totalWABeforeCA
    rw [sum_map_filter
      (fun pr => if pr.2.status = "CA" then pr.2.waCountBeforeCA else 0)
      (fun pr h => by
        show (if pr.2.status = "CA" then pr.2.waCountBeforeCA else 0) = 0
        rw [if_neg h])]
    have hBwa : ((ust.problems.filter (fun pr => pr.2.status = "CA")).map
        (fun pr => if pr.2.status = "CA" then pr.2.waCountBeforeCA else 0)) =
        ((ust.problems.filter (fun pr => pr.2.status = "CA")).map Prod.fst).map
          (wrongBeforeAccept c subs e.username) := by
      rw [List.map_map]
      apply List.map_congr_left
      intro pr hpr
      have hca : pr.2.status = "CA" := of_decide_eq_true (List.mem_filter.1 hpr).2
      rw [if_pos hca]
      exact (c3 pr hpr).2
    rw [hBwa, (hperm.map (wrongBeforeAccept c subs e.username)).sum_eq]
    rfl
  rw [helt, hA, hB,
    foldl_max_perm (hperm.map (fun p => (firstCAOffset c subs e.username p).getD 0)) 0,
    hwa]
  rw [show maxAcceptedOffset c subs e.username =
    ((solvedOf c subs e.username).map
      (fun p => (firstCAOffset c subs e.username p).getD 0)).foldl max 0 from rfl]
  ring

/-- C2 counterexample: for a user whose only acceptance is 10 seconds
before the start, the claim's formula (largest offset among first-accepted
problems, here -10, plus no penalty) gives -10, but the code's entry shows
0: `Math.max` starts from 0 (`part_000:1141`) and clamps negative
offsets. -/
theorem penalty_formula_cex :
    (contestRanking demoContest [preStartCA]).rankings.map
      (fun e => e.lastCATime) = [0] ∧
    origMaxAcceptedOffset demoContest [preStartCA] "alice" +
      300 * (totalWrongBeforeAccept demoContest [preStartCA] "alice" : ℚ) = -10 ∧
    (0 : ℚ) ≠ -10 := by
  have hsort : sortedDuringContest demoContest [preStartCA] = [preStartCA] := by
    unfold sortedDuringContest submissionsDuringContest
    rw [List.filter_cons_of_pos (by decide), List.filter_nil]
    exact List.mergeSort_singleton _
  have hoff : timeSinceStart demoContest preStartCA = -10 := by
    unfold timeSinceStart demoContest preStartCA
    norm_num
  have hgrp : grpl [preStartCA] "alice" "A" = [preStartCA] := by decide
  have hpids : userPids demoContest [preStartCA] "alice" = ["A"] := by
    unfold userPids
    rw [hsort]
    decide
  have hsolved : solvedOf demoContest [preStartCA] "alice" = ["A"] := by
    unfold solvedOf
    rw [hpids]
    rw [List.filter_cons_of_pos, List.filter_nil]
    unfold grpOf
    rw [hsort]
    decide
  have hfca : firstCAOffset demoContest [preStartCA] "alice" "A" = some (-10) := by
    unfold firstCAOffset grpOf
    rw [hsort, hgrp, List.find?_cons_of_pos _ (by decide), Option.map_some', hoff]
  refine ⟨?_, ?_, by norm_num⟩
  · rw [contestRanking_single demoContest preStartCA (by decide)]
    show [(singleEntry demoContest preStartCA).lastCATime] = [0]
    have hnew : isNewCA ({} : UserStat) preStartCA = true := by decide
    have hlt : (updatedUserStat demoContest {} preStartCA).lastCATime =
        max 0 (timeSinceStart demoContest preStartCA) := by
      show (if isNewCA ({} : UserStat) preStartCA then
        max ({} : UserStat).lastCATime (timeSinceStart demoContest preStartCA)
        else ({} : UserStat).lastCATime) = _
      rw [hnew]
      rfl
    have hwa0 : totalWABeforeCA (updatedUserStat demoContest {} preStartCA) = 0 := by
      decide
    show [(updatedUserStat demoContest {} preStartCA).lastCATime +
      (totalWABeforeCA (updatedUserStat demoContest {} preStartCA) : ℚ) * 300] = [0]
    rw [hlt, hwa0, hoff]
    norm_num
  · unfold origMaxAcceptedOffset
    rw [hsolved, List.map_cons, List.map_nil, hfca]
    have htw : totalWrongBeforeAccept demoContest [preStartCA] "alice" = 0 := by
      unfold totalWrongBeforeAccept
      rw [hsolved]
      unfold wrongBeforeAccept grpOf
      rw [hsort]
      decide
    rw [htw]
    norm_num

/-- C2 witness: scenario A — `alice` submits WA at +10s and CA at +70s on
the 100-point problem; the entry's penalty-adjusted time and the amended
formula both give 70 + 300 = 370. -/
theorem penalty_formula_witness :
    (contestRanking demoContest [demoWA1, demoCA]).rankings.map
      (fun e => e.lastCATime) = [370] ∧
    maxAcceptedOffset demoContest [demoWA1, demoCA] "alice" +
      300 * (totalWrongBeforeAccept demoContest [demoWA1, demoCA] "alice" : ℚ)
      = 370 := by
  have hsort : sortedDuringContest demoContest [demoWA1, demoCA] =
      [demoWA1, demoCA] := by
    unfold sortedDuringContest submissionsDuringContest
    rw [show ([demoWA1, demoCA].filter
      (fun s => decide (s.date ≤ demoContest.endMs))) = [demoWA1, demoCA] by decide]
    exact List.mergeSort_of_sorted (by decide)
  have hfold : rankingFold demoContest [demoWA1, demoCA] =
      rankStep demoContest (rankStep demoContest {} demoWA1) demoCA := by
    unfold rankingFold
    rw [hsort]
    rfl
  have hstep : rankStep demoContest (rankStep demoContest {} demoWA1) demoCA =
      RState.mk
        [("alice", updatedUserStat demoContest
          (updatedUserStat demoContest {} demoWA1) demoCA)]
        (updatedFA (updatedFA [] demoWA1 (isNewCA {} demoWA1)) demoCA
          (isNewCA (updatedUserStat demoContest {} demoWA1) demoCA)) := rfl
  have hr : (contestRanking demoContest [demoWA1, demoCA]).rankings =
      [⟨"alice",
        (updatedUserStat demoContest (updatedUserStat demoContest {} demoWA1)
          demoCA).score,
        (updatedUserStat demoContest (updatedUserStat demoContest {} demoWA1)
          demoCA).lastCATime +
          (totalWABeforeCA (updatedUserStat demoContest
            (updatedUserStat demoContest {} demoWA1) demoCA) : ℚ) * 300,
        (updatedUserStat demoContest (updatedUserStat demoContest {} demoWA1)
          demoCA).problems,
        totalWABeforeCA (updatedUserStat demoContest
          (updatedUserStat demoContest {} demoWA1) demoCA)⟩] := by
    rw [rankings_of_fold, hfold, hstep, rankingsOf_stats_single,
      List.mergeSort_singleton]
  have hoffCA : timeSinceStart demoContest demoCA = 70 := by
    unfold timeSinceStart demoContest demoCA
    norm_num
  have hU1lt : (updatedUserStat demoContest {} demoWA1).lastCATime = 0 := by
    show (if isNewCA ({} : UserStat) demoWA1 then
      max ({} : UserStat).lastCATime (timeSinceStart demoContest demoWA1)
      else ({} : UserStat).lastCATime) = 0
    rw [show isNewCA ({} : UserStat) demoWA1 = false from by decide]
    rfl
  have hU2lt : (updatedUserStat demoContest
      (updatedUserStat demoContest {} demoWA1) demoCA).lastCATime =
      max 0 (timeSinceStart demoContest demoCA) := by
    show (if isNewCA (updatedUserStat demoContest {} demoWA1) demoCA then
      max (updatedUserStat demoContest {} demoWA1).lastCATime
        (timeSinceStart demoContest demoCA)
      else (updatedUserStat demoContest {} demoWA1).lastCATime) = _
    rw [show isNewCA (updatedUserStat demoContest {} demoWA1) demoCA = true
      from by decide, if_pos rfl, hU1lt]
  have hwa1 : totalWABeforeCA (updatedUserStat demoContest
      (updatedUserStat demoContest {} demoWA1) demoCA) = 1 := by decide
  have hval : (updatedUserStat demoContest (updatedUserStat demoContest {} demoWA1)
      demoCA).lastCATime +
      (totalWABeforeCA (updatedUserStat demoContest
        (updatedUserStat demoContest {} demoWA1) demoCA) : ℚ) * 300 = 370 := by
    rw [hU2lt, hwa1, hoffCA]
    norm_num
  have hmap : (contestRanking demoContest [demoWA1, demoCA]).rankings.map
      (fun e => e.lastCATime) = [370] := by
    rw [hr, List.map_cons, List.map_nil]
    show [(updatedUserStat demoContest (updatedUserStat demoContest {} demoWA1)
      demoCA).lastCATime +
      (totalWABeforeCA (updatedUserStat demoContest
        (updatedUserStat demoContest {} demoWA1) demoCA) : ℚ) * 300] = [370]
    rw [hval]
  refine ⟨hmap, ?_⟩
  have he : (⟨"alice",
      (updatedUserStat demoContest (updatedUserStat demoContest {} demoWA1)
        demoCA).score,
      (updatedUserStat demoContest (updatedUserStat demoContest {} demoWA1)
        demoCA).lastCATime +
        (totalWABeforeCA (updatedUserStat demoContest
          (updatedUserStat demoContest {} demoWA1) demoCA) : ℚ) * 300,
      (updatedUserStat demoContest (updatedUserStat demoContest {} demoWA1)
        demoCA).problems,
      totalWABeforeCA (updatedUserStat demoContest
        (updatedUserStat demoContest {} demoWA1) demoCA)⟩ : RankEntry) ∈
      (contestRanking demoContest [demoWA1, demoCA]).rankings := by
    rw [hr]
    exact List.mem_singleton.2 rfl
  have happly := penalty_formula demoContest [demoWA1, demoCA] _ he
  rw [hval] at happly
  exact happly.symm

end Zisaku
